import Mathlib

/-!
Verification of the oxidebook matching engine against its specification.

The development shallowly embeds the Rust sources:
* `src/order_book.rs` — the per-pair limit order book (`Side`, `Order`,
  `TreeKey`, `Deal`, `OrderBook` with `place`, `cancel_order`,
  `change_order_volume`, `get_order`).  The `RBTree<TreeKey, Order>` sides
  are modelled as association lists kept sorted by `TreeKey.cmp`, matching
  the tree's in-order iteration; `HashMap<Uuid, TreeKey>` is an association
  list; `Uuid` is modelled as `Nat`.
* `src/core.rs` — the exchange dispatch loop (`Exchange::run` body).
* `src/rest_api.rs` — the gateway place-order handler.
* `src/protocol.rs` — the message schema and its JSON wire form.
-/

set_option maxHeartbeats 1000000
set_option linter.unusedVariables false

namespace Oxidebook

/-- A side of the exchange order book (buy or sell); `enum Side` in
`src/order_book.rs`. -/
inductive Side where
  | Buy
  | Sell
deriving DecidableEq, Repr

/-- `Side::opposite` from `src/order_book.rs`. -/
def Side.opposite : Side → Side
  | .Buy => .Sell
  | .Sell => .Buy

/-- An exchange order (`struct Order` in `src/order_book.rs`); the `Uuid`
id is modelled as `Nat`. -/
structure Order where
  id : Nat
  side : Side
  price : Nat
  volume : Nat
deriving DecidableEq, Repr

/-- The RBTree ordering key (`struct TreeKey` in `src/order_book.rs`). -/
structure TreeKey where
  side : Side
  price : Nat
  seq_id : Nat
deriving DecidableEq, Repr

/-- `impl Ord for TreeKey` (`src/order_book.rs` lines 69-77): compare the
prices; on equality compare `seq_id`; otherwise keep the price comparison
on the sell side and reverse it on the buy side (Rust's
`Ordering::reverse` is Lean's `Ordering.swap`). -/
def TreeKey.cmp (a b : TreeKey) : Ordering :=
  match compare a.price b.price with
  | .eq => compare a.seq_id b.seq_id
  | c => if a.side = Side.Sell then c else c.swap

/-- `Order::tree_key` from `src/order_book.rs`. -/
def Order.tree_key (o : Order) (seq_id : Nat) : TreeKey :=
  { side := o.side, price := o.price, seq_id := seq_id }

/-- A deal resulting from order filling (`struct Deal`); both order fields
are snapshots taken before the deal's volume is subtracted. -/
structure Deal where
  taker_order : Order
  maker_order : Order
  volume : Nat
deriving DecidableEq, Repr

/-- `enum CancellingError` from `src/order_book.rs`. -/
inductive CancellingError where
  | OrderNotFound
deriving DecidableEq, Repr

/-- `enum ChangeOrderVolumeError` from `src/order_book.rs`. -/
inductive ChangeOrderVolumeError where
  | ZeroVolume
  | OrderNotFound
deriving DecidableEq, Repr

/-- One side of the book: `RBTree<TreeKey, Order>` modelled as an
association list sorted in ascending `TreeKey.cmp` order (the order the
tree's iterator yields entries in). -/
abbrev Tree := List (TreeKey × Order)

/-- `RBTree::get` on the sorted-list model. -/
def Tree.lookupKey (k : TreeKey) : Tree → Option Order
  | [] => none
  | e :: rest => if e.1 = k then some e.2 else Tree.lookupKey k rest

/-- `RBTree::remove` on the sorted-list model (keys are unique). -/
def Tree.removeKey (k : TreeKey) : Tree → Tree
  | [] => []
  | e :: rest => if e.1 = k then rest else e :: Tree.removeKey k rest

/-- `RBTree::insert` on the sorted-list model: place the new entry before
the first strictly greater key. -/
def Tree.insertEntry (k : TreeKey) (o : Order) : Tree → Tree
  | [] => [(k, o)]
  | e :: rest =>
    if TreeKey.cmp k e.1 = Ordering.lt then (k, o) :: e :: rest
    else e :: Tree.insertEntry k o rest

/-- `RBTree::replace_or_insert` on the sorted-list model. -/
def Tree.replaceOrInsert (k : TreeKey) (o : Order) : Tree → Tree
  | [] => [(k, o)]
  | e :: rest =>
    match TreeKey.cmp k e.1 with
    | .lt => (k, o) :: e :: rest
    | .eq => (k, o) :: rest
    | .gt => e :: Tree.replaceOrInsert k o rest

/-- `HashMap::get` on the association-list model of `by_uuid`. -/
def lookupId (id : Nat) : List (Nat × TreeKey) → Option TreeKey
  | [] => none
  | e :: rest => if e.1 = id then some e.2 else lookupId id rest

/-- `HashMap::insert` (replacing an existing binding) on the
association-list model of `by_uuid`. -/
def insertId (id : Nat) (k : TreeKey) (m : List (Nat × TreeKey)) :
    List (Nat × TreeKey) :=
  (id, k) :: m.filter (fun e => e.1 ≠ id)

/-- `HashMap::remove` on the association-list model of `by_uuid`. -/
def removeId (id : Nat) (m : List (Nat × TreeKey)) : List (Nat × TreeKey) :=
  m.filter (fun e => e.1 ≠ id)

/-- `struct OrderBook` from `src/order_book.rs`. -/
structure OrderBook where
  next_seq_id : Nat
  buy_levels : Tree
  sell_levels : Tree
  by_uuid : List (Nat × TreeKey)
deriving Repr

/-- `OrderBook::new`. -/
def OrderBook.new : OrderBook :=
  { next_seq_id := 0, buy_levels := [], sell_levels := [], by_uuid := [] }

/-- `OrderBook::tree` (also standing for `tree_mut`). -/
def OrderBook.tree (b : OrderBook) : Side → Tree
  | .Sell => b.sell_levels
  | .Buy => b.buy_levels

/-- Writing back through `tree_mut`. -/
def OrderBook.setTree (b : OrderBook) : Side → Tree → OrderBook
  | .Sell, t => { b with sell_levels := t }
  | .Buy, t => { b with buy_levels := t }

/-- `OrderBook::add_order`. -/
def OrderBook.add_order (b : OrderBook) (o : Order) : OrderBook :=
  let key := o.tree_key b.next_seq_id
  let b1 := b.setTree o.side ((b.tree o.side).insertEntry key o)
  { b1 with
    by_uuid := insertId o.id key b1.by_uuid
    next_seq_id := b1.next_seq_id + 1 }

/-- `OrderBook::remove_order`. -/
def OrderBook.remove_order (b : OrderBook) (key : TreeKey) (order_id : Nat) :
    OrderBook :=
  let b1 := b.setTree key.side ((b.tree key.side).removeKey key)
  { b1 with by_uuid := removeId order_id b1.by_uuid }

/-- The loop-break test inside `OrderBook::place` (`src/order_book.rs`
lines 213-217): a buy taker stops below the maker's price, a sell taker
stops above it. -/
def stopCond (order maker : Order) : Prop :=
  (order.price < maker.price ∧ order.side = Side.Buy) ∨
  (maker.price < order.price ∧ order.side = Side.Sell)

instance (order maker : Order) : Decidable (stopCond order maker) := by
  unfold stopCond; infer_instance

/-- Result of the matching loop of `OrderBook::place`: the emitted deals,
the opposite-side tree with maker volumes decremented in place, the
makers marked for removal (`removed_orders` in the source), and the final
state of the incoming order. -/
structure LoopResult where
  deals : List Deal
  tree : Tree
  removed : List (TreeKey × Order)
  final : Order
deriving Repr

/-- The `for (key, maker_order) in self.tree_mut(...).iter_mut()` loop of
`OrderBook::place` (`src/order_book.rs` lines 210-235), processing the
opposite-side entries in iteration order. -/
def placeLoop (order : Order) : Tree → LoopResult
  | [] => ⟨[], [], [], order⟩
  | (key, maker) :: rest =>
    if stopCond order maker then ⟨[], (key, maker) :: rest, [], order⟩
    else
      let dv := min maker.volume order.volume
      let d : Deal :=
        { taker_order := order, maker_order := maker, volume := dv }
      let maker' : Order := { maker with volume := maker.volume - dv }
      let order' : Order := { order with volume := order.volume - dv }
      let rm : List (TreeKey × Order) :=
        if maker'.volume = 0 then [(key, maker')] else []
      if order'.volume = 0 then
        ⟨[d], (key, maker') :: rest, rm, order'⟩
      else
        let r := placeLoop order' rest
        ⟨d :: r.deals, (key, maker') :: r.tree, rm ++ r.removed, r.final⟩

/-- `OrderBook::place` (`src/order_book.rs` lines 205-245): run the
matching loop over the opposite side, then remove the fully consumed
makers, then rest the residual if its volume is non-zero.  The Rust
function returns `Result<Vec<Deal>, PlacingError>` but always returns
`Ok`, so the model returns the deals directly. -/
def OrderBook.place (b : OrderBook) (order : Order) :
    List Deal × OrderBook :=
  let r := placeLoop order (b.tree order.side.opposite)
  let b1 := b.setTree order.side.opposite r.tree
  let b2 := r.removed.foldl (fun bb e => bb.remove_order e.1 e.2.id) b1
  let b3 := if r.final.volume ≠ 0 then b2.add_order r.final else b2
  (r.deals, b3)

/-- `OrderBook::get_order`.  The source unwraps the tree lookup (it cannot
fail on a well-formed book); the model returns `none` in that dead
branch. -/
def OrderBook.get_order (b : OrderBook) (id : Nat) : Option Order :=
  match lookupId id b.by_uuid with
  | some key => (b.tree key.side).lookupKey key
  | none => none

/-- `OrderBook::change_order_volume`.  Returned alongside the updated
book, since the Rust method mutates `self`.  The source unwraps the tree
lookup (dead branch on a well-formed book); the model leaves the book
unchanged there. -/
def OrderBook.change_order_volume (b : OrderBook) (order_id : Nat)
    (new_volume : Nat) : Except ChangeOrderVolumeError Unit × OrderBook :=
  if new_volume = 0 then (.error .ZeroVolume, b)
  else
    match lookupId order_id b.by_uuid with
    | some key =>
      match (b.tree key.side).lookupKey key with
      | some ord =>
        let new_order := { ord with volume := new_volume }
        (.ok (),
          b.setTree key.side ((b.tree key.side).replaceOrInsert key new_order))
      | none => (.ok (), b)
    | none => (.error .OrderNotFound, b)

/-- `OrderBook::cancel_order`.  Returned alongside the updated book, since
the Rust method mutates `self`. -/
def OrderBook.cancel_order (b : OrderBook) (order_id : Nat) :
    Except CancellingError Unit × OrderBook :=
  match lookupId order_id b.by_uuid with
  | some key => (.ok (), b.remove_order key order_id)
  | none => (.error .OrderNotFound, b)

/-! ### Characterisation of the `TreeKey` ordering -/

theorem cmp_lt_sell (a b : TreeKey) (ha : a.side = Side.Sell) :
    TreeKey.cmp a b = .lt ↔
      a.price < b.price ∨ (a.price = b.price ∧ a.seq_id < b.seq_id) := by
  unfold TreeKey.cmp
  rcases h : compare a.price b.price with _ | _ | _
  · rw [Nat.compare_eq_lt] at h
    simp [ha, h]
  · rw [Nat.compare_eq_eq] at h
    rw [Nat.compare_eq_lt]
    omega
  · rw [Nat.compare_eq_gt] at h
    simp [ha]
    omega

theorem cmp_lt_buy (a b : TreeKey) (ha : a.side = Side.Buy) :
    TreeKey.cmp a b = .lt ↔
      b.price < a.price ∨ (a.price = b.price ∧ a.seq_id < b.seq_id) := by
  unfold TreeKey.cmp
  rcases h : compare a.price b.price with _ | _ | _
  · rw [Nat.compare_eq_lt] at h
    simp [ha, Ordering.swap]
    omega
  · rw [Nat.compare_eq_eq] at h
    rw [Nat.compare_eq_lt]
    omega
  · rw [Nat.compare_eq_gt] at h
    simp [ha, h, Ordering.swap]

theorem cmp_eq_iff (a b : TreeKey) :
    TreeKey.cmp a b = .eq ↔ a.price = b.price ∧ a.seq_id = b.seq_id := by
  unfold TreeKey.cmp
  rcases h : compare a.price b.price with _ | _ | _
  · rw [Nat.compare_eq_lt] at h
    by_cases hs : a.side = Side.Sell <;> simp [hs, Ordering.swap] <;> omega
  · rw [Nat.compare_eq_eq] at h
    rw [Nat.compare_eq_eq]
    omega
  · rw [Nat.compare_eq_gt] at h
    by_cases hs : a.side = Side.Sell <;> simp [hs, Ordering.swap] <;> omega

theorem cmp_self_eq (a : TreeKey) : TreeKey.cmp a a = .eq := by
  rw [cmp_eq_iff]
  exact ⟨rfl, rfl⟩

theorem cmp_lt_of_sides (a b : TreeKey) (hs : a.side = b.side) :
    TreeKey.cmp a b = .lt ↔
      (match a.side with
       | Side.Buy => b.price < a.price ∨ (a.price = b.price ∧ a.seq_id < b.seq_id)
       | Side.Sell => a.price < b.price ∨ (a.price = b.price ∧ a.seq_id < b.seq_id)) := by
  cases h : a.side
  · exact cmp_lt_buy a b h
  · exact cmp_lt_sell a b h

theorem cmp_trans_lt {a b c : TreeKey} (hab : a.side = b.side)
    (hbc : b.side = c.side) (h1 : TreeKey.cmp a b = .lt)
    (h2 : TreeKey.cmp b c = .lt) : TreeKey.cmp a c = .lt := by
  cases hs : a.side
  · rw [cmp_lt_buy a b hs] at h1
    rw [cmp_lt_buy b c (hab ▸ hs)] at h2
    rw [cmp_lt_buy a c hs]
    omega
  · rw [cmp_lt_sell a b hs] at h1
    rw [cmp_lt_sell b c (hab ▸ hs)] at h2
    rw [cmp_lt_sell a c hs]
    omega

theorem cmp_asymm {a b : TreeKey} (hs : a.side = b.side)
    (h1 : TreeKey.cmp a b = .lt) (h2 : TreeKey.cmp b a = .lt) : False := by
  cases h : a.side
  · rw [cmp_lt_buy a b h] at h1
    rw [cmp_lt_buy b a (hs ▸ h)] at h2
    omega
  · rw [cmp_lt_sell a b h] at h1
    rw [cmp_lt_sell b a (hs ▸ h)] at h2
    omega

theorem cmp_total {a b : TreeKey} (hs : a.side = b.side) :
    TreeKey.cmp a b = .lt ∨ TreeKey.cmp b a = .lt ∨
      (a.price = b.price ∧ a.seq_id = b.seq_id) := by
  cases h : a.side
  · rw [cmp_lt_buy a b h, cmp_lt_buy b a (hs ▸ h)]
    omega
  · rw [cmp_lt_sell a b h, cmp_lt_sell b a (hs ▸ h)]
    omega

theorem key_eq_of_cmp_eq {a b : TreeKey} (hs : a.side = b.side)
    (h : TreeKey.cmp a b = .eq) : a = b := by
  rw [cmp_eq_iff] at h
  cases a
  cases b
  simp_all

/-- C1: the order-book ordering key compares as the spec states: on the
buy side the higher price orders first, on the sell side the lower price
orders first, ties on price are broken by the lower `seq_id`; equivalently
`TreeKey.cmp a b` is the tuple comparison `(price, seq_id)` with the price
component reversed on the buy side. -/
theorem treeKey_cmp_correct (a b : TreeKey) (hs : a.side = b.side) :
    (a.side = Side.Buy →
      (TreeKey.cmp a b = .lt ↔
        b.price < a.price ∨ (a.price = b.price ∧ a.seq_id < b.seq_id))) ∧
    (a.side = Side.Sell →
      (TreeKey.cmp a b = .lt ↔
        a.price < b.price ∨ (a.price = b.price ∧ a.seq_id < b.seq_id))) ∧
    TreeKey.cmp a b =
      (if a.side = Side.Sell then compare a.price b.price
       else compare b.price a.price).then (compare a.seq_id b.seq_id) := by
  refine ⟨fun h => cmp_lt_buy a b h, fun h => cmp_lt_sell a b h, ?_⟩
  unfold TreeKey.cmp
  rcases hp : compare a.price b.price with _ | _ | _
  · rw [Nat.compare_eq_lt] at hp
    have : compare b.price a.price = .gt := Nat.compare_eq_gt.mpr hp
    cases hside : a.side <;> simp [this, Ordering.then, Ordering.swap]
  · rw [Nat.compare_eq_eq] at hp
    have h1 : compare a.price b.price = .eq := Nat.compare_eq_eq.mpr hp
    have h2 : compare b.price a.price = .eq := Nat.compare_eq_eq.mpr hp.symm
    cases hside : a.side <;> simp [h1, h2, Ordering.then]
  · rw [Nat.compare_eq_gt] at hp
    have : compare b.price a.price = .lt := Nat.compare_eq_lt.mpr hp
    cases hside : a.side <;> simp [this, Ordering.then, Ordering.swap]

/-- Witness for C1 at concrete keys: on the buy side a higher-priced key
orders first. -/
theorem treeKey_cmp_correct_witness :
    TreeKey.cmp ⟨Side.Buy, 5, 7⟩ ⟨Side.Buy, 3, 1⟩ = .lt :=
  ((treeKey_cmp_correct ⟨Side.Buy, 5, 7⟩ ⟨Side.Buy, 3, 1⟩ rfl).1 rfl).mpr
    (by decide)

/-! ### Association-list tree lemmas -/

theorem lookupKey_mem {k : TreeKey} {o : Order} {t : Tree}
    (h : Tree.lookupKey k t = some o) : (k, o) ∈ t := by
  induction t with
  | nil => simp [Tree.lookupKey] at h
  | cons e rest ih =>
    by_cases he : e.1 = k
    · have h2 : e.2 = o := by simpa [Tree.lookupKey, he] using h
      have : e = (k, o) := by rw [Prod.ext_iff]; exact ⟨he, h2⟩
      simp [this]
    · have := ih (by simpa [Tree.lookupKey, he] using h)
      simp [this]

theorem lookupKey_of_mem {k : TreeKey} {o : Order} {t : Tree}
    (hnd : (t.map Prod.fst).Nodup) (h : (k, o) ∈ t) :
    Tree.lookupKey k t = some o := by
  induction t with
  | nil => simp at h
  | cons e rest ih =>
    simp only [List.map_cons, List.nodup_cons] at hnd
    rcases List.mem_cons.mp h with h | h
    · rw [← h]
      simp [Tree.lookupKey]
    · have hne : e.1 ≠ k := by
        intro hk
        exact hnd.1 (hk ▸ (List.mem_map.mpr ⟨(k, o), h, rfl⟩))
      simp [Tree.lookupKey, hne, ih hnd.2 h]

theorem lookupKey_eq_none {k : TreeKey} {t : Tree}
    (h : ∀ e ∈ t, e.1 ≠ k) : Tree.lookupKey k t = none := by
  induction t with
  | nil => rfl
  | cons e rest ih =>
    simp [Tree.lookupKey, h e (List.mem_cons_self e rest),
      ih (fun f hf => h f (List.mem_cons_of_mem e hf))]

theorem lookupKey_none_not_mem {k : TreeKey} {t : Tree}
    (h : Tree.lookupKey k t = none) : ∀ o, (k, o) ∉ t := by
  intro o hm
  induction t with
  | nil => simp at hm
  | cons e rest ih =>
    rcases List.mem_cons.mp hm with he | he
    · rw [← he] at h
      simp [Tree.lookupKey] at h
    · by_cases hk : e.1 = k
      · simp [Tree.lookupKey, hk] at h
      · exact ih (by simpa [Tree.lookupKey, hk] using h) he

theorem removeKey_sublist (k : TreeKey) (t : Tree) :
    (Tree.removeKey k t).Sublist t := by
  induction t with
  | nil => simp [Tree.removeKey]
  | cons e rest ih =>
    by_cases he : e.1 = k
    · simp [Tree.removeKey, he]
    · simpa [Tree.removeKey, he] using ih.cons₂ e

theorem mem_removeKey {k : TreeKey} {t : Tree} {e : TreeKey × Order}
    (hnd : (t.map Prod.fst).Nodup) :
    e ∈ Tree.removeKey k t ↔ e ∈ t ∧ e.1 ≠ k := by
  induction t with
  | nil => simp [Tree.removeKey]
  | cons f rest ih =>
    simp only [List.map_cons, List.nodup_cons] at hnd
    by_cases hf : f.1 = k
    · simp only [Tree.removeKey, if_pos hf, List.mem_cons]
      constructor
      · intro hm
        refine ⟨Or.inr hm, ?_⟩
        intro hk
        exact hnd.1 (hf ▸ hk ▸ (List.mem_map.mpr ⟨e, hm, rfl⟩))
      · rintro ⟨h | h, hne⟩
        · exact absurd (h ▸ hf) hne
        · exact h
    · simp only [Tree.removeKey, if_neg hf, List.mem_cons, ih hnd.2]
      constructor
      · rintro (h | ⟨h1, h2⟩)
        · exact ⟨Or.inl h, h ▸ hf⟩
        · exact ⟨Or.inr h1, h2⟩
      · rintro ⟨h | h, hne⟩
        · exact Or.inl h
        · exact Or.inr ⟨h, hne⟩

theorem insertEntry_split (k : TreeKey) (o : Order) (t : Tree) :
    ∃ t1 t2, t = t1 ++ t2 ∧ Tree.insertEntry k o t = t1 ++ (k, o) :: t2 := by
  induction t with
  | nil => exact ⟨[], [], rfl, rfl⟩
  | cons e rest ih =>
    by_cases hc : TreeKey.cmp k e.1 = Ordering.lt
    · exact ⟨[], e :: rest, rfl, by simp [Tree.insertEntry, hc]⟩
    · obtain ⟨t1, t2, h1, h2⟩ := ih
      exact ⟨e :: t1, t2, by simp [h1], by simp [Tree.insertEntry, hc, h2]⟩

theorem mem_insertEntry {k : TreeKey} {o : Order} {t : Tree}
    {e : TreeKey × Order} :
    e ∈ Tree.insertEntry k o t ↔ e = (k, o) ∨ e ∈ t := by
  obtain ⟨t1, t2, h1, h2⟩ := insertEntry_split k o t
  rw [h2, h1]
  simp [List.mem_append]
  tauto

/-! ### Sortedness of the tree model -/

/-- The association list is in strictly ascending `TreeKey.cmp` order,
as the red-black tree's iterator guarantees. -/
def sortedTree (t : Tree) : Prop :=
  t.Pairwise (fun x y => TreeKey.cmp x.1 y.1 = .lt)

instance (t : Tree) : Decidable (sortedTree t) := by
  unfold sortedTree; infer_instance

/-- All keys and orders of the tree carry the side it stores, and each
key's price is its order's price. -/
def sideCoherent (s : Side) (t : Tree) : Prop :=
  ∀ e ∈ t, e.1.side = s ∧ e.2.side = s ∧ e.1.price = e.2.price

instance (s : Side) (t : Tree) : Decidable (sideCoherent s t) := by
  unfold sideCoherent; infer_instance

/-- All sequence ids in the tree are below the book's counter. -/
def seqBelow (n : Nat) (t : Tree) : Prop := ∀ e ∈ t, e.1.seq_id < n

instance (n : Nat) (t : Tree) : Decidable (seqBelow n t) := by
  unfold seqBelow; infer_instance

theorem sortedTree_nodup_keys {t : Tree} (h : sortedTree t) :
    (t.map Prod.fst).Nodup := by
  refine List.Pairwise.map Prod.fst ?_ h
  intro a b hab heq
  rw [heq, cmp_self_eq] at hab
  exact absurd hab (by decide)

theorem insertEntry_sorted {k : TreeKey} {o : Order} {t : Tree}
    (hs : sortedTree t) (hside : ∀ f ∈ t, f.1.side = k.side)
    (hne : ∀ f ∈ t, TreeKey.cmp k f.1 ≠ .eq) :
    sortedTree (t.insertEntry k o) := by
  induction t with
  | nil => simp [Tree.insertEntry, sortedTree]
  | cons e rest ih =>
    rw [sortedTree, List.pairwise_cons] at hs
    by_cases hc : TreeKey.cmp k e.1 = Ordering.lt
    · rw [show Tree.insertEntry k o (e :: rest) = (k, o) :: e :: rest by
        simp [Tree.insertEntry, hc]]
      rw [sortedTree]
      refine List.pairwise_cons.mpr ⟨?_, List.pairwise_cons.mpr ⟨hs.1, hs.2⟩⟩
      intro f hf
      rcases List.mem_cons.mp hf with h | h
      · rw [h]; exact hc
      · refine cmp_trans_lt ?_ ?_ hc (hs.1 f h)
        · exact (hside e (List.mem_cons_self e rest)).symm
        · rw [(hside e (List.mem_cons_self e rest)),
            (hside f (List.mem_cons_of_mem e h))]
    · rw [show Tree.insertEntry k o (e :: rest) = e :: Tree.insertEntry k o rest
        by simp [Tree.insertEntry, hc]]
      rw [sortedTree, List.pairwise_cons]
      constructor
      · intro f hf
        rcases mem_insertEntry.mp hf with h | h
        · rw [h]
          have hse : e.1.side = k.side := hside e (List.mem_cons_self e rest)
          rcases cmp_total (a := k) (b := e.1) hse.symm with h1 | h1 | h1
          · exact absurd h1 hc
          · exact h1
          · exact absurd (cmp_eq_iff k e.1 |>.mpr h1)
              (hne e (List.mem_cons_self e rest))
        · exact hs.1 f h
      · exact ih hs.2 (fun f hf => hside f (List.mem_cons_of_mem e hf))
          (fun f hf => hne f (List.mem_cons_of_mem e hf))

theorem replaceOrInsert_split {k : TreeKey} {ord o : Order} {t : Tree}
    (hs : sortedTree t) (hside : ∀ f ∈ t, f.1.side = k.side)
    (hm : (k, ord) ∈ t) :
    ∃ t1 t2, t = t1 ++ (k, ord) :: t2 ∧
      Tree.replaceOrInsert k o t = t1 ++ (k, o) :: t2 := by
  induction t with
  | nil => simp at hm
  | cons e rest ih =>
    rw [sortedTree, List.pairwise_cons] at hs
    rcases hc : TreeKey.cmp k e.1 with _ | _ | _
    · exfalso
      rcases List.mem_cons.mp hm with h | h
      · rw [← h] at hc
        rw [cmp_self_eq] at hc
        exact absurd hc (by decide)
      · exact cmp_asymm (hside e (List.mem_cons_self e rest)).symm hc (hs.1 _ h)
    · have hk : k = e.1 :=
        key_eq_of_cmp_eq (hside e (List.mem_cons_self e rest)).symm hc
      have he : e = (k, ord) := by
        rcases List.mem_cons.mp hm with h | h
        · exact h.symm
        · exfalso
          have := hs.1 (k, ord) h
          rw [← hk, cmp_self_eq] at this
          exact absurd this (by decide)
      refine ⟨[], rest, by simp [he], ?_⟩
      show Tree.replaceOrInsert k o (e :: rest) = (k, o) :: rest
      simp [Tree.replaceOrInsert, hc]
    · have hne : e ≠ (k, ord) := by
        intro h
        rw [h] at hc
        rw [cmp_self_eq] at hc
        exact absurd hc (by decide)
      have hm' : (k, ord) ∈ rest := by
        rcases List.mem_cons.mp hm with h | h
        · exact absurd h.symm hne
        · exact h
      obtain ⟨t1, t2, h1, h2⟩ := ih hs.2
        (fun f hf => hside f (List.mem_cons_of_mem e hf)) hm'
      refine ⟨e :: t1, t2, by simp [h1], ?_⟩
      show Tree.replaceOrInsert k o (e :: rest) = e :: (t1 ++ (k, o) :: t2)
      simp [Tree.replaceOrInsert, hc, h2]

/-! ### Book invariants -/

/-- Geometric well-formedness of a book: each side is strictly sorted by
`TreeKey.cmp`, sides and prices are coherent between keys and orders, and
all minted sequence ids are below the counter. -/
structure Geom (b : OrderBook) : Prop where
  sorted_buy : sortedTree b.buy_levels
  sorted_sell : sortedTree b.sell_levels
  coh_buy : sideCoherent Side.Buy b.buy_levels
  coh_sell : sideCoherent Side.Sell b.sell_levels
  seq_buy : seqBelow b.next_seq_id b.buy_levels
  seq_sell : seqBelow b.next_seq_id b.sell_levels
  pos_buy : ∀ e ∈ b.buy_levels, 0 < e.2.volume
  pos_sell : ∀ e ∈ b.sell_levels, 0 < e.2.volume

theorem Geom.sorted {b : OrderBook} (h : Geom b) :
    ∀ s, sortedTree (b.tree s) := by
  intro s
  cases s
  · exact h.sorted_buy
  · exact h.sorted_sell

theorem Geom.coh {b : OrderBook} (h : Geom b) :
    ∀ s, sideCoherent s (b.tree s) := by
  intro s
  cases s
  · exact h.coh_buy
  · exact h.coh_sell

theorem Geom.seq {b : OrderBook} (h : Geom b) :
    ∀ s, seqBelow b.next_seq_id (b.tree s) := by
  intro s
  cases s
  · exact h.seq_buy
  · exact h.seq_sell

theorem Geom.pos {b : OrderBook} (h : Geom b) :
    ∀ s, ∀ e ∈ b.tree s, 0 < e.2.volume := by
  intro s
  cases s
  · exact h.pos_buy
  · exact h.pos_sell

/-- The book is not crossed: every resting buy is priced strictly below
every resting sell. -/
def NoCross (b : OrderBook) : Prop :=
  ∀ x ∈ b.buy_levels, ∀ y ∈ b.sell_levels, x.2.price < y.2.price

instance (b : OrderBook) : Decidable (NoCross b) := by
  unfold NoCross; infer_instance

theorem Side.opposite_ne (s : Side) : s.opposite ≠ s := by
  cases s <;> simp [Side.opposite]

/-- The multiset of ids resting in the book (buy side then sell side). -/
def OrderBook.treeIds (b : OrderBook) : List Nat :=
  (b.buy_levels ++ b.sell_levels).map (fun e => e.2.id)

/-- Total volume of a list of deals. -/
def dealsVolume (ds : List Deal) : Nat := (ds.map Deal.volume).sum

/-- Total deal volume attributed to the maker with the given id. -/
def makerVolume (id : Nat) (ds : List Deal) : Nat :=
  dealsVolume (ds.filter (fun d => d.maker_order.id == id))

theorem dealsVolume_nil : dealsVolume [] = 0 := rfl

theorem dealsVolume_cons (d : Deal) (ds : List Deal) :
    dealsVolume (d :: ds) = d.volume + dealsVolume ds := by
  simp [dealsVolume]

theorem dealsVolume_append (ds1 ds2 : List Deal) :
    dealsVolume (ds1 ++ ds2) = dealsVolume ds1 + dealsVolume ds2 := by
  simp [dealsVolume]

theorem makerVolume_nil (id : Nat) : makerVolume id [] = 0 := rfl

theorem makerVolume_cons (id : Nat) (d : Deal) (ds : List Deal) :
    makerVolume id (d :: ds) =
      (if d.maker_order.id = id then d.volume else 0) + makerVolume id ds := by
  by_cases h : d.maker_order.id = id <;>
    simp [makerVolume, List.filter_cons, h, dealsVolume_cons]

theorem makerVolume_append (id : Nat) (ds1 ds2 : List Deal) :
    makerVolume id (ds1 ++ ds2) = makerVolume id ds1 + makerVolume id ds2 := by
  simp [makerVolume, List.filter_append, dealsVolume_append]

theorem makerVolume_eq_zero {id : Nat} {ds : List Deal}
    (h : ∀ d ∈ ds, d.maker_order.id ≠ id) : makerVolume id ds = 0 := by
  induction ds with
  | nil => rfl
  | cons d rest ih =>
    rw [makerVolume_cons, if_neg (h d (List.mem_cons_self d rest)),
      ih (fun f hf => h f (List.mem_cons_of_mem d hf))]

/-! ### Structural lemmas about the matching loop -/

theorem placeLoop_final (o : Order) (t : Tree) :
    (placeLoop o t).final.id = o.id ∧ (placeLoop o t).final.side = o.side ∧
      (placeLoop o t).final.price = o.price ∧
      (placeLoop o t).final.volume ≤ o.volume := by
  induction t generalizing o with
  | nil => simp [placeLoop]
  | cons e rest ih =>
    obtain ⟨key, maker⟩ := e
    by_cases hstop : stopCond o maker
    · simp [placeLoop, hstop]
    · by_cases h0 : o.volume - min maker.volume o.volume = 0
      · simp [placeLoop, hstop, h0]
      · have := ih { o with volume := o.volume - min maker.volume o.volume }
        simp only [placeLoop, if_neg hstop, if_neg h0] at *
        exact ⟨this.1, this.2.1, this.2.2.1,
          le_trans this.2.2.2 (Nat.sub_le _ _)⟩

theorem placeLoop_conserve (o : Order) (t : Tree) :
    dealsVolume (placeLoop o t).deals + (placeLoop o t).final.volume
      = o.volume := by
  induction t generalizing o with
  | nil => simp [placeLoop, dealsVolume_nil]
  | cons e rest ih =>
    obtain ⟨key, maker⟩ := e
    by_cases hstop : stopCond o maker
    · simp [placeLoop, hstop, dealsVolume_nil]
    · by_cases h0 : o.volume - min maker.volume o.volume = 0
      · simp [placeLoop, hstop, h0, dealsVolume_cons, dealsVolume_nil]
        omega
      · have := ih { o with volume := o.volume - min maker.volume o.volume }
        simp only [placeLoop, if_neg hstop, if_neg h0] at *
        rw [dealsVolume_cons]
        simp at *
        omega

theorem placeLoop_keys (o : Order) (t : Tree) :
    (placeLoop o t).tree.map Prod.fst = t.map Prod.fst := by
  induction t generalizing o with
  | nil => simp [placeLoop]
  | cons e rest ih =>
    obtain ⟨key, maker⟩ := e
    by_cases hstop : stopCond o maker
    · simp [placeLoop, hstop]
    · by_cases h0 : o.volume - min maker.volume o.volume = 0
      · simp [placeLoop, hstop, h0]
      · have := ih { o with volume := o.volume - min maker.volume o.volume }
        simp only [placeLoop, if_neg hstop, if_neg h0] at *
        simpa using this

theorem placeLoop_origin (o : Order) (t : Tree) :
    ∀ e ∈ (placeLoop o t).tree, ∃ e₀ ∈ t, e.1 = e₀.1 ∧ e.2.id = e₀.2.id ∧
      e.2.side = e₀.2.side ∧ e.2.price = e₀.2.price ∧
      e.2.volume ≤ e₀.2.volume := by
  induction t generalizing o with
  | nil => simp [placeLoop]
  | cons f rest ih =>
    obtain ⟨key, maker⟩ := f
    intro e he
    by_cases hstop : stopCond o maker
    · simp only [placeLoop, if_pos hstop] at he
      exact ⟨e, he, rfl, rfl, rfl, rfl, le_refl _⟩
    · by_cases h0 : o.volume - min maker.volume o.volume = 0
      · simp only [placeLoop, if_neg hstop, if_pos h0, List.mem_cons] at he
        rcases he with he | he
        · refine ⟨(key, maker), List.mem_cons_self _ _, ?_⟩
          rw [he]
          simp
        · exact ⟨e, List.mem_cons_of_mem _ he, rfl, rfl, rfl, rfl, le_refl _⟩
      · simp only [placeLoop, if_neg hstop, if_neg h0, List.mem_cons] at he
        rcases he with he | he
        · refine ⟨(key, maker), List.mem_cons_self _ _, ?_⟩
          rw [he]
          simp
        · obtain ⟨e₀, h1, h2⟩ :=
            ih { o with volume := o.volume - min maker.volume o.volume } e he
          exact ⟨e₀, List.mem_cons_of_mem _ h1, h2⟩

theorem placeLoop_entry (o : Order) (t : Tree) :
    ∀ e ∈ t, ∃ v, (e.1, { e.2 with volume := v }) ∈ (placeLoop o t).tree ∧
      v ≤ e.2.volume := by
  induction t generalizing o with
  | nil => simp
  | cons f rest ih =>
    obtain ⟨key, maker⟩ := f
    rintro ⟨ek, eo⟩ he
    by_cases hstop : stopCond o maker
    · refine ⟨eo.volume, ?_, le_refl _⟩
      simp only [placeLoop, if_pos hstop]
      exact he
    · by_cases h0 : o.volume - min maker.volume o.volume = 0
      · simp only [placeLoop, if_neg hstop, if_pos h0]
        rcases List.mem_cons.mp he with he | he
        · rw [Prod.mk.injEq] at he
          obtain ⟨rfl, rfl⟩ := he
          exact ⟨eo.volume - min eo.volume o.volume, List.mem_cons_self _ _,
            Nat.sub_le _ _⟩
        · exact ⟨eo.volume, List.mem_cons_of_mem _ he, le_refl _⟩
      · simp only [placeLoop, if_neg hstop, if_neg h0]
        rcases List.mem_cons.mp he with he | he
        · rw [Prod.mk.injEq] at he
          obtain ⟨rfl, rfl⟩ := he
          exact ⟨eo.volume - min eo.volume o.volume, List.mem_cons_self _ _,
            Nat.sub_le _ _⟩
        · obtain ⟨v, h1, h2⟩ :=
            ih { o with volume := o.volume - min maker.volume o.volume }
              (ek, eo) he
          exact ⟨v, List.mem_cons_of_mem _ h1, h2⟩

theorem placeLoop_removed (o : Order) (t : Tree) :
    ∀ e ∈ (placeLoop o t).removed, e.2.volume = 0 ∧ e ∈ (placeLoop o t).tree ∧
      ∃ e₀ ∈ t, e₀.1 = e.1 ∧ e₀.2.id = e.2.id := by
  induction t generalizing o with
  | nil => simp [placeLoop]
  | cons f rest ih =>
    obtain ⟨key, maker⟩ := f
    intro e he
    by_cases hstop : stopCond o maker
    · simp [placeLoop, hstop] at he
    · by_cases h0 : o.volume - min maker.volume o.volume = 0
      · simp only [placeLoop, if_neg hstop, if_pos h0] at he ⊢
        by_cases hz : maker.volume - min maker.volume o.volume = 0
        · simp only [if_pos hz, List.mem_singleton] at he
          subst he
          refine ⟨by simpa using hz, List.mem_cons_self _ _,
            ⟨(key, maker), List.mem_cons_self _ _, rfl, rfl⟩⟩
        · simp [if_neg hz] at he
      · simp only [placeLoop, if_neg hstop, if_neg h0, List.mem_append] at he ⊢
        rcases he with he | he
        · by_cases hz : maker.volume - min maker.volume o.volume = 0
          · simp only [if_pos hz, List.mem_singleton] at he
            subst he
            refine ⟨by simpa using hz, List.mem_cons_self _ _,
              ⟨(key, maker), List.mem_cons_self _ _, rfl, rfl⟩⟩
          · simp [if_neg hz] at he
        · obtain ⟨h1, h2, e₀, h3, h4⟩ :=
            ih { o with volume := o.volume - min maker.volume o.volume } e he
          exact ⟨h1, List.mem_cons_of_mem _ h2,
            ⟨e₀, List.mem_cons_of_mem _ h3, h4⟩⟩

theorem placeLoop_zero_removed (o : Order) (t : Tree)
    (hpos : ∀ e ∈ t, 0 < e.2.volume) :
    ∀ e ∈ (placeLoop o t).tree, e.2.volume = 0 →
      e.1 ∈ (placeLoop o t).removed.map Prod.fst := by
  induction t generalizing o with
  | nil => simp [placeLoop]
  | cons f rest ih =>
    obtain ⟨key, maker⟩ := f
    intro e he hz
    by_cases hstop : stopCond o maker
    · simp only [placeLoop, if_pos hstop] at he ⊢
      exact absurd hz (by have := hpos e he; omega)
    · by_cases h0 : o.volume - min maker.volume o.volume = 0
      · simp only [placeLoop, if_neg hstop, if_pos h0, List.mem_cons] at he ⊢
        rcases he with he | he
        · have : maker.volume - min maker.volume o.volume = 0 := by
            rw [he] at hz
            simpa using hz
          simp [this, he]
        · exact absurd hz (by have := hpos e (List.mem_cons_of_mem _ he); omega)
      · simp only [placeLoop, if_neg hstop, if_neg h0, List.mem_cons] at he ⊢
        rcases he with he | he
        · have : maker.volume - min maker.volume o.volume = 0 := by
            rw [he] at hz
            simpa using hz
          simp [this, he]
        · have := ih { o with volume := o.volume - min maker.volume o.volume }
            (fun f hf => hpos f (List.mem_cons_of_mem _ hf)) e he hz
          rcases List.mem_map.mp this with ⟨r, hr, hrk⟩
          refine List.mem_map.mpr ⟨r, ?_, hrk⟩
          by_cases hzm : maker.volume - min maker.volume o.volume = 0 <;>
            simp [hzm, hr]

theorem placeLoop_deals (o : Order) (t : Tree) :
    ∀ d ∈ (placeLoop o t).deals, d.taker_order.id = o.id ∧
      d.taker_order.side = o.side ∧ d.taker_order.price = o.price ∧
      ∃ e₀ ∈ t, d.maker_order = e₀.2 := by
  induction t generalizing o with
  | nil => simp [placeLoop]
  | cons f rest ih =>
    obtain ⟨key, maker⟩ := f
    intro d hd
    by_cases hstop : stopCond o maker
    · simp [placeLoop, hstop] at hd
    · by_cases h0 : o.volume - min maker.volume o.volume = 0
      · simp only [placeLoop, if_neg hstop, if_pos h0,
          List.mem_singleton] at hd
        subst hd
        exact ⟨rfl, rfl, rfl, (key, maker), List.mem_cons_self _ _, rfl⟩
      · simp only [placeLoop, if_neg hstop, if_neg h0, List.mem_cons] at hd
        rcases hd with hd | hd
        · subst hd
          exact ⟨rfl, rfl, rfl, (key, maker), List.mem_cons_self _ _, rfl⟩
        · obtain ⟨h1, h2, h3, e₀, h4, h5⟩ :=
            ih { o with volume := o.volume - min maker.volume o.volume } d hd
          exact ⟨h1, h2, h3, e₀, List.mem_cons_of_mem _ h4, h5⟩

/-- Price monotonicity of the walked (opposite) side, in the direction the
taker consumes it. -/
def oppMono (takerSide : Side) (t : Tree) : Prop :=
  match takerSide with
  | Side.Buy => t.Pairwise (fun x y => x.2.price ≤ y.2.price)
  | Side.Sell => t.Pairwise (fun x y => y.2.price ≤ x.2.price)

theorem geom_oppMono {b : OrderBook} (h : Geom b) (s : Side) :
    oppMono s (b.tree s.opposite) := by
  cases s
  · show (b.tree Side.Sell).Pairwise _
    refine List.Pairwise.imp_of_mem ?_ (h.sorted Side.Sell)
    intro x y hx hy hxy
    have cx := (h.coh Side.Sell) x hx
    have cy := (h.coh Side.Sell) y hy
    rw [cmp_lt_sell x.1 y.1 cx.1] at hxy
    omega
  · show (b.tree Side.Buy).Pairwise _
    refine List.Pairwise.imp_of_mem ?_ (h.sorted Side.Buy)
    intro x y hx hy hxy
    have cx := (h.coh Side.Buy) x hx
    have cy := (h.coh Side.Buy) y hy
    rw [cmp_lt_buy x.1 y.1 cx.1] at hxy
    omega

theorem placeLoop_stop (o : Order) (t : Tree) (hm : oppMono o.side t)
    (hf : (placeLoop o t).final.volume ≠ 0) :
    ∀ e ∈ (placeLoop o t).tree, e.2.volume ≠ 0 →
      stopCond o e.2 ∧ e ∈ t := by
  induction t generalizing o with
  | nil => simp [placeLoop]
  | cons f rest ih =>
    obtain ⟨key, maker⟩ := f
    intro e he hez
    by_cases hstop : stopCond o maker
    · simp only [placeLoop, if_pos hstop] at he hf ⊢
      refine ⟨?_, he⟩
      rcases List.mem_cons.mp he with h | h
      · rw [h]
        exact hstop
      · rcases hstop with ⟨hp, hside⟩ | ⟨hp, hside⟩
        · rw [hside] at hm
          simp only [oppMono] at hm
          have hle : maker.price ≤ e.2.price := by
            simpa using (List.pairwise_cons.mp hm).1 e h
          exact Or.inl ⟨by omega, hside⟩
        · rw [hside] at hm
          simp only [oppMono] at hm
          have hle : e.2.price ≤ maker.price := by
            simpa using (List.pairwise_cons.mp hm).1 e h
          exact Or.inr ⟨by omega, hside⟩
    · by_cases h0 : o.volume - min maker.volume o.volume = 0
      · simp only [placeLoop, if_neg hstop, if_pos h0] at hf
        simp at hf
        exact absurd h0 hf
      · simp only [placeLoop, if_neg hstop, if_neg h0, List.mem_cons]
          at he hf ⊢
        rcases he with he | he
        · exfalso
          have hdv : min maker.volume o.volume = maker.volume := by omega
          rw [he] at hez
          simp [hdv] at hez
        · have hmono : oppMono o.side rest := by
            rcases hside : o.side
            all_goals rw [hside] at hm; simp only [oppMono] at hm ⊢
            all_goals exact (List.pairwise_cons.mp hm).2
          have := ih { o with volume := o.volume - min maker.volume o.volume }
            hmono hf e he hez
          exact ⟨this.1, Or.inr this.2⟩

/-! ### Book-surgery lemmas -/

theorem setTree_next (b : OrderBook) (s : Side) (t : Tree) :
    (b.setTree s t).next_seq_id = b.next_seq_id := by
  cases s <;> rfl

theorem setTree_uuid (b : OrderBook) (s : Side) (t : Tree) :
    (b.setTree s t).by_uuid = b.by_uuid := by
  cases s <;> rfl

theorem tree_setTree_same (b : OrderBook) (s : Side) (t : Tree) :
    (b.setTree s t).tree s = t := by
  cases s <;> rfl

theorem tree_setTree_other (b : OrderBook) {s s' : Side} (t : Tree)
    (h : s' ≠ s) : (b.setTree s t).tree s' = b.tree s' := by
  cases s <;> cases s' <;> first | rfl | (exact absurd rfl h)

theorem remove_order_tree_same (b : OrderBook) (key : TreeKey) (id : Nat) :
    (b.remove_order key id).tree key.side =
      (b.tree key.side).removeKey key := by
  unfold OrderBook.remove_order
  cases hs : key.side <;> simp [OrderBook.setTree, OrderBook.tree, hs]

theorem remove_order_tree_other (b : OrderBook) (key : TreeKey) (id : Nat)
    {s : Side} (h : s ≠ key.side) :
    (b.remove_order key id).tree s = b.tree s := by
  unfold OrderBook.remove_order
  cases hs : key.side <;> rw [hs] at h <;> cases s <;>
    first
      | (exact absurd rfl h)
      | simp [OrderBook.setTree, OrderBook.tree]

theorem remove_order_uuid (b : OrderBook) (key : TreeKey) (id : Nat) :
    (b.remove_order key id).by_uuid = removeId id b.by_uuid := by
  unfold OrderBook.remove_order
  simp [setTree_uuid]

theorem remove_order_next (b : OrderBook) (key : TreeKey) (id : Nat) :
    (b.remove_order key id).next_seq_id = b.next_seq_id := by
  unfold OrderBook.remove_order
  rw [setTree_next]

/-- The removal pass of `OrderBook::place` over `removed_orders`. -/
def removeFold (rs : List (TreeKey × Order)) (b : OrderBook) : OrderBook :=
  rs.foldl (fun bb e => bb.remove_order e.1 e.2.id) b

/-- The same pass viewed on one tree. -/
def removeAllKeys (rs : List (TreeKey × Order)) (t : Tree) : Tree :=
  rs.foldl (fun tt e => Tree.removeKey e.1 tt) t

theorem removeFold_next (rs : List (TreeKey × Order)) (b : OrderBook) :
    (removeFold rs b).next_seq_id = b.next_seq_id := by
  induction rs generalizing b with
  | nil => rfl
  | cons r rest ih =>
    show (removeFold rest (b.remove_order r.1 r.2.id)).next_seq_id = _
    rw [ih, remove_order_next]

theorem removeFold_tree_other {rs : List (TreeKey × Order)} (b : OrderBook)
    {s : Side} (h : ∀ e ∈ rs, e.1.side ≠ s) :
    (removeFold rs b).tree s = b.tree s := by
  induction rs generalizing b with
  | nil => rfl
  | cons r rest ih =>
    show (removeFold rest (b.remove_order r.1 r.2.id)).tree s = _
    rw [ih _ (fun e he => h e (List.mem_cons_of_mem r he)),
      remove_order_tree_other _ _ _
        (fun hh => h r (List.mem_cons_self r rest) hh.symm)]

theorem removeFold_tree_same {rs : List (TreeKey × Order)} (b : OrderBook)
    {s : Side} (h : ∀ e ∈ rs, e.1.side = s) :
    (removeFold rs b).tree s = removeAllKeys rs (b.tree s) := by
  induction rs generalizing b with
  | nil => rfl
  | cons r rest ih =>
    show (removeFold rest (b.remove_order r.1 r.2.id)).tree s
      = removeAllKeys rest ((b.tree s).removeKey r.1)
    rw [ih _ (fun e he => h e (List.mem_cons_of_mem r he))]
    have hr : r.1.side = s := h r (List.mem_cons_self r rest)
    rw [← hr, remove_order_tree_same]

theorem removeFold_uuid (rs : List (TreeKey × Order)) (b : OrderBook) :
    (removeFold rs b).by_uuid =
      rs.foldl (fun m e => removeId e.2.id m) b.by_uuid := by
  induction rs generalizing b with
  | nil => rfl
  | cons r rest ih =>
    show (removeFold rest (b.remove_order r.1 r.2.id)).by_uuid = _
    rw [ih, remove_order_uuid, List.foldl_cons]

theorem removeAllKeys_sublist (rs : List (TreeKey × Order)) (t : Tree) :
    (removeAllKeys rs t).Sublist t := by
  induction rs generalizing t with
  | nil => simp [removeAllKeys]
  | cons r rest ih =>
    exact (ih (t.removeKey r.1)).trans (removeKey_sublist r.1 t)

theorem mem_removeAllKeys {rs : List (TreeKey × Order)} {t : Tree}
    (hnd : (t.map Prod.fst).Nodup) (e : TreeKey × Order) :
    e ∈ removeAllKeys rs t ↔ e ∈ t ∧ e.1 ∉ rs.map Prod.fst := by
  induction rs generalizing t with
  | nil => simp [removeAllKeys]
  | cons r rest ih =>
    have hnd' : ((t.removeKey r.1).map Prod.fst).Nodup :=
      ((removeKey_sublist r.1 t).map Prod.fst).nodup hnd
    show e ∈ removeAllKeys rest (t.removeKey r.1) ↔ _
    rw [ih hnd', mem_removeKey hnd]
    simp only [List.map_cons, List.mem_cons]
    tauto

theorem mem_removeId {i : Nat} {m : List (Nat × TreeKey)}
    (p : Nat × TreeKey) : p ∈ removeId i m ↔ p ∈ m ∧ p.1 ≠ i := by
  simp [removeId, List.mem_filter]

theorem mem_removeIdFold {rs : List (TreeKey × Order)}
    {m : List (Nat × TreeKey)} (p : Nat × TreeKey) :
    p ∈ rs.foldl (fun mm e => removeId e.2.id mm) m ↔
      p ∈ m ∧ p.1 ∉ rs.map (fun e => e.2.id) := by
  induction rs generalizing m with
  | nil => simp
  | cons r rest ih =>
    show p ∈ rest.foldl _ (removeId r.2.id m) ↔ _
    rw [ih, mem_removeId]
    simp only [List.map_cons, List.mem_cons]
    tauto

theorem mem_insertId {i : Nat} {k : TreeKey} {m : List (Nat × TreeKey)}
    (p : Nat × TreeKey) :
    p ∈ insertId i k m ↔ p = (i, k) ∨ (p ∈ m ∧ p.1 ≠ i) := by
  simp [insertId, List.mem_filter]

theorem lookupId_mem {i : Nat} {k : TreeKey} {m : List (Nat × TreeKey)}
    (h : lookupId i m = some k) : (i, k) ∈ m := by
  induction m with
  | nil => simp [lookupId] at h
  | cons p rest ih =>
    by_cases hp : p.1 = i
    · have h2 : p.2 = k := by simpa [lookupId, hp] using h
      have : p = (i, k) := by rw [Prod.ext_iff]; exact ⟨hp, h2⟩
      simp [this]
    · exact List.mem_cons_of_mem _ (ih (by simpa [lookupId, hp] using h))

theorem lookupId_eq_none {i : Nat} {m : List (Nat × TreeKey)}
    (h : ∀ p ∈ m, p.1 ≠ i) : lookupId i m = none := by
  induction m with
  | nil => rfl
  | cons p rest ih =>
    simp [lookupId, h p (List.mem_cons_self p rest),
      ih (fun q hq => h q (List.mem_cons_of_mem p hq))]

theorem lookupId_none_not_mem {i : Nat} {m : List (Nat × TreeKey)}
    (h : lookupId i m = none) : ∀ k, (i, k) ∉ m := by
  intro k hm
  induction m with
  | nil => simp at hm
  | cons p rest ih =>
    rcases List.mem_cons.mp hm with hp | hp
    · rw [← hp] at h
      simp [lookupId] at h
    · by_cases hq : p.1 = i
      · simp [lookupId, hq] at h
      · exact ih (by simpa [lookupId, hq] using h) hp

theorem lookupId_of_mem {i : Nat} {k : TreeKey} {m : List (Nat × TreeKey)}
    (hnd : (m.map Prod.fst).Nodup) (h : (i, k) ∈ m) :
    lookupId i m = some k := by
  induction m with
  | nil => simp at h
  | cons p rest ih =>
    simp only [List.map_cons, List.nodup_cons] at hnd
    rcases List.mem_cons.mp h with hp | hp
    · rw [← hp]
      simp [lookupId]
    · have hne : p.1 ≠ i := by
        intro hq
        exact hnd.1 (hq ▸ (List.mem_map.mpr ⟨(i, k), hp, rfl⟩))
      simp [lookupId, hne, ih hnd.2 hp]

theorem Side.opposite_opposite (s : Side) : s.opposite.opposite = s := by
  cases s <;> rfl

theorem Side.ne_opposite (s : Side) : s ≠ s.opposite := by
  intro h
  exact Side.opposite_ne s h.symm

theorem add_order_next (b : OrderBook) (o : Order) :
    (b.add_order o).next_seq_id = b.next_seq_id + 1 := by
  rcases hos : o.side <;>
    simp [OrderBook.add_order, OrderBook.setTree, hos]

theorem add_order_uuid (b : OrderBook) (o : Order) :
    (b.add_order o).by_uuid =
      insertId o.id (o.tree_key b.next_seq_id) b.by_uuid := by
  rcases hos : o.side <;>
    simp [OrderBook.add_order, OrderBook.setTree, hos]

theorem add_order_tree_same (b : OrderBook) (o : Order) :
    (b.add_order o).tree o.side =
      (b.tree o.side).insertEntry (o.tree_key b.next_seq_id) o := by
  rcases hos : o.side <;>
    simp [OrderBook.add_order, OrderBook.setTree, OrderBook.tree, hos]

theorem add_order_tree_other (b : OrderBook) (o : Order) {s : Side}
    (h : s ≠ o.side) : (b.add_order o).tree s = b.tree s := by
  rcases hos : o.side <;> rw [hos] at h <;> rcases s <;>
    first
      | (exact absurd rfl h)
      | simp [OrderBook.add_order, OrderBook.setTree, OrderBook.tree, hos]

/-- The matching-loop result that `OrderBook::place` computes. -/
def placeRun (b : OrderBook) (o : Order) : LoopResult :=
  placeLoop o (b.tree o.side.opposite)

theorem place_deals (b : OrderBook) (o : Order) :
    (b.place o).1 = (placeRun b o).deals := rfl

theorem place_snd (b : OrderBook) (o : Order) :
    (b.place o).2 =
      (if (placeRun b o).final.volume ≠ 0 then
        (removeFold (placeRun b o).removed
          (b.setTree o.side.opposite (placeRun b o).tree)).add_order
            (placeRun b o).final
      else
        removeFold (placeRun b o).removed
          (b.setTree o.side.opposite (placeRun b o).tree)) := rfl

theorem placeRun_removed_side (b : OrderBook) (o : Order) (hg : Geom b) :
    ∀ e ∈ (placeRun b o).removed, e.1.side = o.side.opposite := by
  intro e he
  obtain ⟨_, _, e₀, h₀, hk, _⟩ :=
    placeLoop_removed o (b.tree o.side.opposite) e he
  rw [← hk]
  exact (hg.coh o.side.opposite e₀ h₀).1

theorem place_tree_walked (b : OrderBook) (o : Order) (hg : Geom b) :
    (b.place o).2.tree o.side.opposite =
      removeAllKeys (placeRun b o).removed (placeRun b o).tree := by
  have hrem := placeRun_removed_side b o hg
  have hbase :
      (removeFold (placeRun b o).removed
        (b.setTree o.side.opposite (placeRun b o).tree)).tree
          o.side.opposite =
        removeAllKeys (placeRun b o).removed (placeRun b o).tree := by
    rw [removeFold_tree_same _ hrem, tree_setTree_same]
  rw [place_snd]
  by_cases hv : (placeRun b o).final.volume ≠ 0
  · rw [if_pos hv]
    have hside : (placeRun b o).final.side = o.side :=
      (placeLoop_final o (b.tree o.side.opposite)).2.1
    rw [add_order_tree_other _ _
      (by rw [hside]; exact Side.opposite_ne o.side), hbase]
  · rw [if_neg hv]
    exact hbase

theorem place_tree_rest (b : OrderBook) (o : Order) (hg : Geom b) :
    (b.place o).2.tree o.side =
      (if (placeRun b o).final.volume ≠ 0 then
        (b.tree o.side).insertEntry
          ((placeRun b o).final.tree_key b.next_seq_id) (placeRun b o).final
      else b.tree o.side) := by
  have hrem := placeRun_removed_side b o hg
  have hbase :
      (removeFold (placeRun b o).removed
        (b.setTree o.side.opposite (placeRun b o).tree)).tree o.side
        = b.tree o.side := by
    rw [removeFold_tree_other _
      (fun e he hh => Side.opposite_ne o.side ((hrem e he) ▸ hh)),
      tree_setTree_other _ _ (Side.ne_opposite o.side)]
  rw [place_snd]
  by_cases hv : (placeRun b o).final.volume ≠ 0
  · rw [if_pos hv, if_pos hv]
    have hside : (placeRun b o).final.side = o.side :=
      (placeLoop_final o (b.tree o.side.opposite)).2.1
    have hnext :
        (removeFold (placeRun b o).removed
          (b.setTree o.side.opposite (placeRun b o).tree)).next_seq_id
          = b.next_seq_id := by
      rw [removeFold_next, setTree_next]
    rw [← hside] at hbase hnext ⊢
    rw [add_order_tree_same, hbase, hnext]
  · rw [if_neg hv, if_neg hv]
    exact hbase

theorem place_next (b : OrderBook) (o : Order) :
    (b.place o).2.next_seq_id =
      (if (placeRun b o).final.volume ≠ 0 then b.next_seq_id + 1
       else b.next_seq_id) := by
  rw [place_snd]
  by_cases hv : (placeRun b o).final.volume ≠ 0
  · rw [if_pos hv, if_pos hv, add_order_next, removeFold_next, setTree_next]
  · rw [if_neg hv, if_neg hv, removeFold_next, setTree_next]

theorem place_uuid (b : OrderBook) (o : Order) :
    (b.place o).2.by_uuid =
      (if (placeRun b o).final.volume ≠ 0 then
        insertId (placeRun b o).final.id
          ((placeRun b o).final.tree_key b.next_seq_id)
          ((placeRun b o).removed.foldl (fun m e => removeId e.2.id m)
            b.by_uuid)
      else
        (placeRun b o).removed.foldl (fun m e => removeId e.2.id m)
          b.by_uuid) := by
  rw [place_snd]
  by_cases hv : (placeRun b o).final.volume ≠ 0
  · rw [if_pos hv, if_pos hv, add_order_uuid, removeFold_uuid, setTree_uuid,
      removeFold_next, setTree_next]
  · rw [if_neg hv, if_neg hv, removeFold_uuid, setTree_uuid]

theorem sortedTree_keys (t : Tree) :
    sortedTree t ↔
      (t.map Prod.fst).Pairwise (fun a b => TreeKey.cmp a b = .lt) := by
  unfold sortedTree
  rw [List.pairwise_map]

theorem Geom.mk_tree {b : OrderBook} (h1 : ∀ s, sortedTree (b.tree s))
    (h2 : ∀ s, sideCoherent s (b.tree s))
    (h3 : ∀ s, seqBelow b.next_seq_id (b.tree s))
    (h4 : ∀ s, ∀ e ∈ b.tree s, 0 < e.2.volume) : Geom b :=
  ⟨h1 .Buy, h1 .Sell, h2 .Buy, h2 .Sell, h3 .Buy, h3 .Sell, h4 .Buy, h4 .Sell⟩

theorem Side.eq_own_or_opposite (s t : Side) : t = s ∨ t = s.opposite := by
  cases s <;> cases t <;> simp [Side.opposite]

theorem place_geom (b : OrderBook) (o : Order) (hg : Geom b) :
    Geom (b.place o).2 := by
  have hwalk := place_tree_walked b o hg
  have hrest := place_tree_rest b o hg
  have hnextq := place_next b o
  have hfs : (placeRun b o).final.side = o.side :=
    (placeLoop_final o (b.tree o.side.opposite)).2.1
  have hfp : (placeRun b o).final.price = o.price :=
    (placeLoop_final o (b.tree o.side.opposite)).2.2.1
  have hsorted_r : sortedTree (placeRun b o).tree := by
    rw [sortedTree_keys]
    rw [show (placeRun b o).tree.map Prod.fst
        = (b.tree o.side.opposite).map Prod.fst from
      placeLoop_keys o (b.tree o.side.opposite)]
    exact (sortedTree_keys _).mp (hg.sorted o.side.opposite)
  have hnd_r : ((placeRun b o).tree.map Prod.fst).Nodup :=
    sortedTree_nodup_keys hsorted_r
  have horig := placeLoop_origin o (b.tree o.side.opposite)
  have hnext_ge : b.next_seq_id ≤ (b.place o).2.next_seq_id := by
    rw [hnextq]
    by_cases hv : (placeRun b o).final.volume ≠ 0 <;> simp [hv]
  have hwalk_entry : ∀ e ∈ (b.place o).2.tree o.side.opposite,
      e ∈ (placeRun b o).tree ∧ 0 < e.2.volume := by
    intro e he
    rw [hwalk] at he
    have hmem := (mem_removeAllKeys hnd_r e).mp he
    refine ⟨hmem.1, ?_⟩
    by_cases hz : e.2.volume = 0
    · exact absurd (placeLoop_zero_removed o (b.tree o.side.opposite)
        (hg.pos o.side.opposite) e hmem.1 hz) hmem.2
    · omega
  have hrest_entry : ∀ e ∈ (b.place o).2.tree o.side,
      e ∈ b.tree o.side ∨
        (e = ((placeRun b o).final.tree_key b.next_seq_id,
          (placeRun b o).final) ∧ (placeRun b o).final.volume ≠ 0) := by
    intro e he
    rw [hrest] at he
    by_cases hv : (placeRun b o).final.volume ≠ 0
    · rw [if_pos hv] at he
      rcases mem_insertEntry.mp he with h | h
      · exact Or.inr ⟨h, hv⟩
      · exact Or.inl h
    · rw [if_neg hv] at he
      exact Or.inl he
  refine Geom.mk_tree ?_ ?_ ?_ ?_
  · intro s
    rcases Side.eq_own_or_opposite o.side s with hso | hso
    · subst hso
      rw [hrest]
      by_cases hv : (placeRun b o).final.volume ≠ 0
      · rw [if_pos hv]
        refine insertEntry_sorted (hg.sorted o.side) ?_ ?_
        · intro f hf
          rw [(hg.coh o.side f hf).1]
          show o.side = ((placeRun b o).final.tree_key b.next_seq_id).side
          rw [Order.tree_key, hfs]
        · intro f hf hcmp
          rw [cmp_eq_iff] at hcmp
          simp only [Order.tree_key] at hcmp
          have := hg.seq o.side f hf
          have hseq : b.next_seq_id = f.1.seq_id := hcmp.2
          omega
      · rw [if_neg hv]
        exact hg.sorted o.side
    · subst hso
      rw [hwalk]
      exact List.Pairwise.sublist (removeAllKeys_sublist _ _) hsorted_r
  · intro s e he
    rcases Side.eq_own_or_opposite o.side s with hso | hso
    · subst hso
      rcases hrest_entry e he with h | ⟨h, hv⟩
      · exact hg.coh o.side e h
      · rw [h]
        refine ⟨?_, hfs, ?_⟩
        · show ((placeRun b o).final.tree_key b.next_seq_id).side = o.side
          rw [Order.tree_key, hfs]
        · show ((placeRun b o).final.tree_key b.next_seq_id).price = _
          rw [Order.tree_key]
    · subst hso
      have hm := (hwalk_entry e he).1
      obtain ⟨e₀, h₀, hk, hid, hsd, hpr, _⟩ := horig e hm
      have hc := hg.coh o.side.opposite e₀ h₀
      exact ⟨hk ▸ hc.1, hsd ▸ hc.2.1, by rw [hk, hpr]; exact hc.2.2⟩
  · intro s e he
    rcases Side.eq_own_or_opposite o.side s with hso | hso
    · subst hso
      rcases hrest_entry e he with h | ⟨h, hv⟩
      · exact lt_of_lt_of_le (hg.seq o.side e h) hnext_ge
      · rw [h]
        rw [hnextq, if_pos hv]
        show b.next_seq_id < b.next_seq_id + 1
        omega
    · subst hso
      have hm := (hwalk_entry e he).1
      obtain ⟨e₀, h₀, hk, _, _, _, _⟩ := horig e hm
      rw [hk]
      exact lt_of_lt_of_le (hg.seq o.side.opposite e₀ h₀) hnext_ge
  · intro s e he
    rcases Side.eq_own_or_opposite o.side s with hso | hso
    · subst hso
      rcases hrest_entry e he with h | ⟨h, hv⟩
      · exact hg.pos o.side e h
      · rw [h]
        show 0 < (placeRun b o).final.volume
        omega
    · subst hso
      exact (hwalk_entry e he).2

theorem place_noCross (b : OrderBook) (o : Order) (hg : Geom b)
    (hnc : NoCross b) : NoCross (b.place o).2 := by
  have hwalk := place_tree_walked b o hg
  have hrest := place_tree_rest b o hg
  have hfs : (placeRun b o).final.side = o.side :=
    (placeLoop_final o (b.tree o.side.opposite)).2.1
  have hfp : (placeRun b o).final.price = o.price :=
    (placeLoop_final o (b.tree o.side.opposite)).2.2.1
  have hsorted_r : sortedTree (placeRun b o).tree := by
    rw [sortedTree_keys]
    rw [show (placeRun b o).tree.map Prod.fst
        = (b.tree o.side.opposite).map Prod.fst from
      placeLoop_keys o (b.tree o.side.opposite)]
    exact (sortedTree_keys _).mp (hg.sorted o.side.opposite)
  have hnd_r : ((placeRun b o).tree.map Prod.fst).Nodup :=
    sortedTree_nodup_keys hsorted_r
  have horig := placeLoop_origin o (b.tree o.side.opposite)
  have hwalk_entry : ∀ e ∈ (b.place o).2.tree o.side.opposite,
      e ∈ (placeRun b o).tree ∧ 0 < e.2.volume := by
    intro e he
    rw [hwalk] at he
    have hmem := (mem_removeAllKeys hnd_r e).mp he
    refine ⟨hmem.1, ?_⟩
    by_cases hz : e.2.volume = 0
    · exact absurd (placeLoop_zero_removed o (b.tree o.side.opposite)
        (hg.pos o.side.opposite) e hmem.1 hz) hmem.2
    · omega
  have hstop : ∀ e ∈ (b.place o).2.tree o.side.opposite,
      (placeRun b o).final.volume ≠ 0 → stopCond o e.2 := by
    intro e he hv
    obtain ⟨hm, hpos⟩ := hwalk_entry e he
    exact (placeLoop_stop o (b.tree o.side.opposite)
      (geom_oppMono hg o.side) hv e hm (by omega)).1
  have hwalk_origin : ∀ e ∈ (b.place o).2.tree o.side.opposite,
      ∃ e₀ ∈ b.tree o.side.opposite, e.2.price = e₀.2.price := by
    intro e he
    obtain ⟨e₀, h₀, _, _, _, hpr, _⟩ := horig e (hwalk_entry e he).1
    exact ⟨e₀, h₀, hpr⟩
  have hrest_entry : ∀ e ∈ (b.place o).2.tree o.side,
      e ∈ b.tree o.side ∨
        (e.2 = (placeRun b o).final ∧ (placeRun b o).final.volume ≠ 0) := by
    intro e he
    rw [hrest] at he
    by_cases hv : (placeRun b o).final.volume ≠ 0
    · rw [if_pos hv] at he
      rcases mem_insertEntry.mp he with h | h
      · exact Or.inr ⟨by rw [h], hv⟩
      · exact Or.inl h
    · rw [if_neg hv] at he
      exact Or.inl he
  intro x hx y hy
  rcases hos : o.side
  · -- incoming buy: buys may gain the residual, sells only shrink
    have hx' : (x ∈ b.tree Side.Buy ∨
        (x.2 = (placeRun b o).final ∧ (placeRun b o).final.volume ≠ 0)) := by
      have := hrest_entry x (by rw [hos] at *; exact hx)
      rw [hos] at this
      exact this
    have hy' : ∃ e₀ ∈ b.tree Side.Sell, y.2.price = e₀.2.price := by
      have := hwalk_origin y (by rw [hos] at *; exact hy)
      rw [hos] at this
      simp only [Side.opposite] at this
      exact this
    obtain ⟨y₀, hy₀, hyp⟩ := hy'
    rcases hx' with hx' | ⟨hx', hv⟩
    · rw [hyp]
      exact hnc x hx' y₀ hy₀
    · have hst := hstop y (by rw [hos] at *; exact hy) hv
      rcases hst with ⟨hp, _⟩ | ⟨_, habs⟩
      · rw [hx', hfp]
        omega
      · rw [hos] at habs
        exact absurd habs (by decide)
  · -- incoming sell: sells may gain the residual, buys only shrink
    have hy' : (y ∈ b.tree Side.Sell ∨
        (y.2 = (placeRun b o).final ∧ (placeRun b o).final.volume ≠ 0)) := by
      have := hrest_entry y (by rw [hos] at *; exact hy)
      rw [hos] at this
      exact this
    have hx' : ∃ e₀ ∈ b.tree Side.Buy, x.2.price = e₀.2.price := by
      have := hwalk_origin x (by rw [hos] at *; exact hx)
      rw [hos] at this
      simp only [Side.opposite] at this
      exact this
    obtain ⟨x₀, hx₀, hxp⟩ := hx'
    rcases hy' with hy' | ⟨hy', hv⟩
    · rw [hxp]
      exact hnc x₀ hx₀ y hy'
    · have hst := hstop x (by rw [hos] at *; exact hx) hv
      rcases hst with ⟨_, habs⟩ | ⟨hp, _⟩
      · rw [hos] at habs
        exact absurd habs (by decide)
      · rw [hy', hfp]
        omega

theorem remove_order_sub (b : OrderBook) (key : TreeKey) (id : Nat) :
    ∀ s, ((b.remove_order key id).tree s).Sublist (b.tree s) := by
  intro s
  by_cases h : s = key.side
  · subst h
    rw [remove_order_tree_same]
    exact removeKey_sublist _ _
  · rw [remove_order_tree_other _ _ _ h]

theorem remove_order_geom (b : OrderBook) (key : TreeKey) (id : Nat)
    (hg : Geom b) : Geom (b.remove_order key id) := by
  have hsub := remove_order_sub b key id
  refine Geom.mk_tree ?_ ?_ ?_ ?_
  · intro s
    exact List.Pairwise.sublist (hsub s) (hg.sorted s)
  · intro s e he
    exact hg.coh s e ((hsub s).subset he)
  · intro s e he
    rw [remove_order_next]
    exact hg.seq s e ((hsub s).subset he)
  · intro s e he
    exact hg.pos s e ((hsub s).subset he)

theorem remove_order_noCross (b : OrderBook) (key : TreeKey) (id : Nat)
    (hnc : NoCross b) : NoCross (b.remove_order key id) := by
  have hsub := remove_order_sub b key id
  intro x hx y hy
  exact hnc x ((hsub Side.Buy).subset hx) y ((hsub Side.Sell).subset hy)

theorem cancel_geom (b : OrderBook) (id : Nat) (hg : Geom b) :
    Geom (b.cancel_order id).2 := by
  unfold OrderBook.cancel_order
  rcases h : lookupId id b.by_uuid with _ | key
  · exact hg
  · exact remove_order_geom b key id hg

theorem cancel_noCross (b : OrderBook) (id : Nat) (hnc : NoCross b) :
    NoCross (b.cancel_order id).2 := by
  unfold OrderBook.cancel_order
  rcases h : lookupId id b.by_uuid with _ | key
  · exact hnc
  · exact remove_order_noCross b key id hnc

theorem change_eq_zero (b : OrderBook) (id v : Nat) (hv : v = 0) :
    b.change_order_volume id v = (.error .ZeroVolume, b) := by
  unfold OrderBook.change_order_volume
  rw [if_pos hv]

theorem change_eq_nofind (b : OrderBook) (id v : Nat) (hv : v ≠ 0)
    (hid : lookupId id b.by_uuid = none) :
    b.change_order_volume id v = (.error .OrderNotFound, b) := by
  unfold OrderBook.change_order_volume
  rw [if_neg hv]
  simp only [hid]

theorem change_eq_nokey (b : OrderBook) (id v : Nat) {key : TreeKey}
    (hv : v ≠ 0) (hid : lookupId id b.by_uuid = some key)
    (hk : Tree.lookupKey key (b.tree key.side) = none) :
    b.change_order_volume id v = (.ok (), b) := by
  unfold OrderBook.change_order_volume
  rw [if_neg hv]
  simp only [hid, hk]

theorem change_eq_some (b : OrderBook) (id v : Nat) {key : TreeKey}
    {ord : Order} (hv : v ≠ 0) (hid : lookupId id b.by_uuid = some key)
    (hk : Tree.lookupKey key (b.tree key.side) = some ord) :
    b.change_order_volume id v =
      (.ok (), b.setTree key.side
        ((b.tree key.side).replaceOrInsert key { ord with volume := v })) := by
  unfold OrderBook.change_order_volume
  rw [if_neg hv]
  simp only [hid, hk]

theorem change_entries (b : OrderBook) (id v : Nat) :
    ∀ s, (b.change_order_volume id v).2.tree s = b.tree s ∨
      ∃ key ord, lookupId id b.by_uuid = some key ∧ s = key.side ∧
        Tree.lookupKey key (b.tree key.side) = some ord ∧
        (b.change_order_volume id v).2.tree key.side =
          (b.tree key.side).replaceOrInsert key { ord with volume := v } ∧
        v ≠ 0 := by
  intro s
  by_cases hv : v = 0
  · left
    rw [change_eq_zero b id v hv]
  · rcases hid : lookupId id b.by_uuid with _ | key
    · left
      rw [change_eq_nofind b id v hv hid]
    · rcases hk : Tree.lookupKey key (b.tree key.side) with _ | ord
      · left
        rw [change_eq_nokey b id v hv hid hk]
      · by_cases hsk : s = key.side
        · subst hsk
          right
          refine ⟨key, ord, rfl, rfl, hk, ?_, hv⟩
          rw [change_eq_some b id v hv hid hk]
          exact tree_setTree_same _ _ _
        · left
          rw [change_eq_some b id v hv hid hk]
          exact tree_setTree_other _ _ hsk

theorem change_next (b : OrderBook) (id v : Nat) :
    (b.change_order_volume id v).2.next_seq_id = b.next_seq_id := by
  by_cases hv : v = 0
  · rw [change_eq_zero b id v hv]
  · rcases hid : lookupId id b.by_uuid with _ | key
    · rw [change_eq_nofind b id v hv hid]
    · rcases hk : Tree.lookupKey key (b.tree key.side) with _ | ord
      · rw [change_eq_nokey b id v hv hid hk]
      · rw [change_eq_some b id v hv hid hk]
        exact setTree_next _ _ _

theorem change_tree_facts (b : OrderBook) (hg : Geom b) {key : TreeKey}
    {ord : Order} (v : Nat)
    (hk : Tree.lookupKey key (b.tree key.side) = some ord) :
    ∃ t1 t2, b.tree key.side = t1 ++ (key, ord) :: t2 ∧
      (b.tree key.side).replaceOrInsert key { ord with volume := v } =
        t1 ++ (key, { ord with volume := v }) :: t2 := by
  have hm : (key, ord) ∈ b.tree key.side := lookupKey_mem hk
  exact replaceOrInsert_split (hg.sorted key.side)
    (fun f hf => (hg.coh key.side f hf).1) hm

theorem change_geom (b : OrderBook) (id v : Nat) (hg : Geom b) :
    Geom (b.change_order_volume id v).2 := by
  refine Geom.mk_tree ?_ ?_ ?_ ?_ <;> intro s
  all_goals
    rcases change_entries b id v s with h | ⟨key, ord, hid, hsk, hk, ht, hv⟩
  · rw [h]
    exact hg.sorted s
  case _ =>
    subst hsk
    obtain ⟨t1, t2, h1, h2⟩ := change_tree_facts b hg v hk
    rw [ht, h2]
    have hkeys : (t1 ++ (key, { ord with volume := v }) :: t2).map Prod.fst
        = (b.tree key.side).map Prod.fst := by
      rw [h1]
      simp
    rw [sortedTree_keys, hkeys]
    exact (sortedTree_keys _).mp (hg.sorted key.side)
  · rw [h]
    exact hg.coh s
  case _ =>
    subst hsk
    obtain ⟨t1, t2, h1, h2⟩ := change_tree_facts b hg v hk
    rw [ht, h2]
    intro e he
    have hmid := hg.coh key.side (key, ord) (by rw [h1]; simp)
    rcases List.mem_append.mp he with he | he
    · exact hg.coh key.side e (by rw [h1]; simp [he])
    · rcases List.mem_cons.mp he with he | he
      · rw [he]
        exact ⟨hmid.1, hmid.2.1, hmid.2.2⟩
      · exact hg.coh key.side e (by rw [h1]; simp [he])
  · rw [h, change_next]
    exact hg.seq s
  case _ =>
    subst hsk
    obtain ⟨t1, t2, h1, h2⟩ := change_tree_facts b hg v hk
    rw [ht, h2, change_next]
    intro e he
    have hmid := hg.seq key.side (key, ord) (by rw [h1]; simp)
    rcases List.mem_append.mp he with he | he
    · exact hg.seq key.side e (by rw [h1]; simp [he])
    · rcases List.mem_cons.mp he with he | he
      · rw [he]
        exact hmid
      · exact hg.seq key.side e (by rw [h1]; simp [he])
  · rw [h]
    exact hg.pos s
  case _ =>
    subst hsk
    obtain ⟨t1, t2, h1, h2⟩ := change_tree_facts b hg v hk
    rw [ht, h2]
    intro e he
    rcases List.mem_append.mp he with he | he
    · exact hg.pos key.side e (by rw [h1]; simp [he])
    · rcases List.mem_cons.mp he with he | he
      · rw [he]
        show 0 < v
        omega
      · exact hg.pos key.side e (by rw [h1]; simp [he])

theorem change_noCross (b : OrderBook) (id v : Nat) (hg : Geom b)
    (hnc : NoCross b) : NoCross (b.change_order_volume id v).2 := by
  have hprice : ∀ s, ∀ e ∈ (b.change_order_volume id v).2.tree s,
      ∃ e₀ ∈ b.tree s, e.2.price = e₀.2.price := by
    intro s e he
    rcases change_entries b id v s with h | ⟨key, ord, hid, hsk, hk, ht, hv⟩
    · rw [h] at he
      exact ⟨e, he, rfl⟩
    · subst hsk
      obtain ⟨t1, t2, h1, h2⟩ := change_tree_facts b hg v hk
      rw [ht, h2] at he
      rcases List.mem_append.mp he with he | he
      · exact ⟨e, by rw [h1]; simp [he], rfl⟩
      · rcases List.mem_cons.mp he with he | he
        · refine ⟨(key, ord), by rw [h1]; simp, ?_⟩
          rw [he]
        · exact ⟨e, by rw [h1]; simp [he], rfl⟩
  intro x hx y hy
  obtain ⟨x₀, hx₀, hxp⟩ := hprice Side.Buy x hx
  obtain ⟨y₀, hy₀, hyp⟩ := hprice Side.Sell y hy
  rw [hxp, hyp]
  exact hnc x₀ hx₀ y₀ hy₀

/-- One mutating operation of the order-book API. -/
inductive BookOp where
  | place (o : Order)
  | cancel (id : Nat)
  | change (id : Nat) (v : Nat)

/-- Apply one operation, keeping the resulting book. -/
def applyOp (b : OrderBook) : BookOp → OrderBook
  | .place o => (b.place o).2
  | .cancel id => (b.cancel_order id).2
  | .change id v => (b.change_order_volume id v).2

/-- Apply a sequence of operations starting from a given book. -/
def applyOps (b : OrderBook) (ops : List BookOp) : OrderBook :=
  ops.foldl applyOp b

theorem geom_new : Geom OrderBook.new := by
  constructor <;> simp [OrderBook.new, sortedTree, sideCoherent, seqBelow]

theorem noCross_new : NoCross OrderBook.new := by
  intro x hx
  simp [OrderBook.new] at hx

theorem applyOp_preserves (b : OrderBook) (op : BookOp) (hg : Geom b)
    (hnc : NoCross b) : Geom (applyOp b op) ∧ NoCross (applyOp b op) := by
  cases op with
  | place o => exact ⟨place_geom b o hg, place_noCross b o hg hnc⟩
  | cancel id => exact ⟨cancel_geom b id hg, cancel_noCross b id hnc⟩
  | change id v => exact ⟨change_geom b id v hg, change_noCross b id v hg hnc⟩

theorem applyOps_preserves (ops : List BookOp) (b : OrderBook) (hg : Geom b)
    (hnc : NoCross b) :
    Geom (applyOps b ops) ∧ NoCross (applyOps b ops) := by
  induction ops generalizing b with
  | nil => exact ⟨hg, hnc⟩
  | cons op rest ih =>
    obtain ⟨hg', hnc'⟩ := applyOp_preserves b op hg hnc
    exact ih (applyOp b op) hg' hnc'

/-- C3: after every operation on an order book (`place`, `cancel_order`,
`change_order_volume`, starting from the empty book), the book does not
cross: every resting buy order is priced strictly below every resting
sell order — equivalently, `max(buy.price) < min(sell.price)` or one side
is empty. -/
theorem book_never_crosses (ops : List BookOp) :
    NoCross (applyOps OrderBook.new ops) :=
  (applyOps_preserves ops OrderBook.new geom_new noCross_new).2

/-! ### Identifier uniqueness across the book -/

theorem placeLoop_ids (o : Order) (t : Tree) :
    (placeLoop o t).tree.map (fun e => e.2.id) =
      t.map (fun e => e.2.id) := by
  induction t generalizing o with
  | nil => simp [placeLoop]
  | cons e rest ih =>
    obtain ⟨key, maker⟩ := e
    by_cases hstop : stopCond o maker
    · simp [placeLoop, hstop]
    · by_cases h0 : o.volume - min maker.volume o.volume = 0
      · simp [placeLoop, hstop, h0]
      · have := ih { o with volume := o.volume - min maker.volume o.volume }
        simp only [placeLoop, if_neg hstop, if_neg h0] at *
        simpa using this

theorem treeIds_eq (b : OrderBook) :
    b.treeIds = (b.tree Side.Buy).map (fun e => e.2.id)
      ++ (b.tree Side.Sell).map (fun e => e.2.id) := by
  unfold OrderBook.treeIds
  rw [List.map_append]
  rfl

theorem mem_treeIds {b : OrderBook} {i : Nat} :
    i ∈ b.treeIds ↔ ∃ s, ∃ e ∈ b.tree s, e.2.id = i := by
  rw [treeIds_eq]
  constructor
  · intro h
    rcases List.mem_append.mp h with h | h
    · obtain ⟨e, he, hi⟩ := List.mem_map.mp h
      exact ⟨Side.Buy, e, he, hi⟩
    · obtain ⟨e, he, hi⟩ := List.mem_map.mp h
      exact ⟨Side.Sell, e, he, hi⟩
  · rintro ⟨s, e, he, hi⟩
    cases s
    · exact List.mem_append.mpr (Or.inl (List.mem_map.mpr ⟨e, he, hi⟩))
    · exact List.mem_append.mpr (Or.inr (List.mem_map.mpr ⟨e, he, hi⟩))

/-- Geometric well-formedness plus global uniqueness of resting ids. -/
structure WFids (b : OrderBook) extends Geom b : Prop where
  ids_nodup : b.treeIds.Nodup

theorem nodup_mid_left {l1 l2 s s0 : List Nat} {a : Nat}
    (h : ((l1 ++ l2) ++ s0).Nodup) (hs : s.Sublist s0)
    (ha : a ∉ (l1 ++ l2) ++ s0) : ((l1 ++ a :: l2) ++ s).Nodup := by
  have h2 : ((l1 ++ l2) ++ s).Nodup :=
    ((List.Sublist.append_left hs (l1 ++ l2)).nodup h)
  have ha2 : a ∉ (l1 ++ l2) ++ s := by
    intro hc
    rcases List.mem_append.mp hc with hc | hc
    · exact ha (List.mem_append.mpr (Or.inl hc))
    · exact ha (List.mem_append.mpr (Or.inr (hs.subset hc)))
  have heq : (l1 ++ a :: l2) ++ s = l1 ++ a :: (l2 ++ s) := by simp
  rw [heq, List.nodup_middle, List.nodup_cons]
  constructor
  · simpa using ha2
  · simpa using h2

theorem nodup_mid_right {l1 l2 s s0 : List Nat} {a : Nat}
    (h : (s0 ++ (l1 ++ l2)).Nodup) (hs : s.Sublist s0)
    (ha : a ∉ s0 ++ (l1 ++ l2)) : (s ++ (l1 ++ a :: l2)).Nodup := by
  have h2 : (s ++ (l1 ++ l2)).Nodup :=
    ((hs.append (List.Sublist.refl (l1 ++ l2))).nodup h)
  have ha2 : a ∉ s ++ (l1 ++ l2) := by
    intro hc
    rcases List.mem_append.mp hc with hc | hc
    · exact ha (List.mem_append.mpr (Or.inl (hs.subset hc)))
    · exact ha (List.mem_append.mpr (Or.inr hc))
  have heq : s ++ (l1 ++ a :: l2) = (s ++ l1) ++ a :: l2 := by simp
  rw [heq, List.nodup_middle, List.nodup_cons]
  constructor
  · simpa using ha2
  · simpa using h2

/-- The walked side of the result keeps (a sublist of) the original ids;
the resting side either is unchanged or gains exactly the taker's id in
one position. -/
theorem place_ids (b : OrderBook) (o : Order) (hg : Geom b) :
    (((b.place o).2.tree o.side.opposite).map (fun e => e.2.id)).Sublist
        ((b.tree o.side.opposite).map (fun e => e.2.id)) ∧
      (((b.place o).2.tree o.side).map (fun e => e.2.id)
          = (b.tree o.side).map (fun e => e.2.id) ∨
        ∃ l1 l2, (b.tree o.side).map (fun e => e.2.id) = l1 ++ l2 ∧
          ((b.place o).2.tree o.side).map (fun e => e.2.id)
            = l1 ++ o.id :: l2) := by
  constructor
  · rw [place_tree_walked b o hg, ← placeLoop_ids o (b.tree o.side.opposite)]
    exact (removeAllKeys_sublist _ _).map _
  · rw [place_tree_rest b o hg]
    by_cases hv : (placeRun b o).final.volume ≠ 0
    · rw [if_pos hv]
      right
      obtain ⟨t1, t2, h1, h2⟩ := insertEntry_split
        ((placeRun b o).final.tree_key b.next_seq_id) (placeRun b o).final
        (b.tree o.side)
      refine ⟨t1.map (fun e => e.2.id), t2.map (fun e => e.2.id),
        by rw [h1]; simp, ?_⟩
      rw [h2]
      simp
      exact (placeLoop_final o (b.tree o.side.opposite)).1
    · rw [if_neg hv]
      left
      rfl

theorem place_WFids (b : OrderBook) (o : Order) (hw : WFids b)
    (hid : o.id ∉ b.treeIds) : WFids (b.place o).2 := by
  refine ⟨place_geom b o hw.toGeom, ?_⟩
  obtain ⟨hsub, hrest⟩ := place_ids b o hw.toGeom
  have hnd := hw.ids_nodup
  rw [treeIds_eq] at hnd ⊢
  rw [treeIds_eq] at hid
  cases hos : o.side
  · rw [hos] at hsub hrest
    simp only [Side.opposite] at hsub
    rcases hrest with h | ⟨l1, l2, h1, h2⟩
    · rw [h]
      exact ((List.Sublist.refl _).append hsub).nodup hnd
    · rw [h2]
      rw [h1] at hnd hid
      exact nodup_mid_left hnd hsub hid
  · rw [hos] at hsub hrest
    simp only [Side.opposite] at hsub
    rcases hrest with h | ⟨l1, l2, h1, h2⟩
    · rw [h]
      exact (hsub.append (List.Sublist.refl _)).nodup hnd
    · rw [h2]
      rw [h1] at hnd hid
      exact nodup_mid_right hnd hsub hid

theorem place_treeIds_subset (b : OrderBook) (o : Order) (hg : Geom b) :
    ∀ i ∈ (b.place o).2.treeIds, i = o.id ∨ i ∈ b.treeIds := by
  intro i hi
  obtain ⟨hsub, hrest⟩ := place_ids b o hg
  rw [mem_treeIds] at hi
  obtain ⟨s, e, he, hid⟩ := hi
  have hmap : i ∈ ((b.place o).2.tree s).map (fun e => e.2.id) :=
    List.mem_map.mpr ⟨e, he, hid⟩
  rcases Side.eq_own_or_opposite o.side s with hs | hs
  · subst hs
    rcases hrest with hr | ⟨l1, l2, h1, h2⟩
    · rw [hr] at hmap
      obtain ⟨e₀, he₀, hi₀⟩ := List.mem_map.mp hmap
      exact Or.inr (mem_treeIds.mpr ⟨o.side, e₀, he₀, hi₀⟩)
    · rw [h2] at hmap
      rcases List.mem_append.mp hmap with hm | hm
      · have hin : i ∈ (b.tree o.side).map (fun e => e.2.id) := by
          rw [h1]
          exact List.mem_append.mpr (Or.inl hm)
        obtain ⟨e₀, he₀, hi₀⟩ := List.mem_map.mp hin
        exact Or.inr (mem_treeIds.mpr ⟨o.side, e₀, he₀, hi₀⟩)
      · rcases List.mem_cons.mp hm with hm | hm
        · exact Or.inl hm
        · have hin : i ∈ (b.tree o.side).map (fun e => e.2.id) := by
            rw [h1]
            exact List.mem_append.mpr (Or.inr hm)
          obtain ⟨e₀, he₀, hi₀⟩ := List.mem_map.mp hin
          exact Or.inr (mem_treeIds.mpr ⟨o.side, e₀, he₀, hi₀⟩)
  · subst hs
    have hin := hsub.subset hmap
    obtain ⟨e₀, he₀, hi₀⟩ := List.mem_map.mp hin
    exact Or.inr (mem_treeIds.mpr ⟨o.side.opposite, e₀, he₀, hi₀⟩)

/-! ### Volume conservation and maker attribution (C4) -/

theorem placeLoop_deal_maker_ids (o : Order) (t : Tree) :
    ∀ d ∈ (placeLoop o t).deals,
      d.maker_order.id ∈ t.map (fun e => e.2.id) := by
  intro d hd
  obtain ⟨_, _, _, e₀, he₀, hm⟩ := placeLoop_deals o t d hd
  exact List.mem_map.mpr ⟨e₀, he₀, by rw [hm]⟩

theorem placeLoop_stop_eq (o : Order) (key : TreeKey) (maker : Order)
    (rest : Tree) (h : stopCond o maker) :
    placeLoop o ((key, maker) :: rest) = ⟨[], (key, maker) :: rest, [], o⟩ := by
  simp [placeLoop, h]

theorem placeLoop_break_eq (o : Order) (key : TreeKey) (maker : Order)
    (rest : Tree) (hns : ¬stopCond o maker)
    (h0 : o.volume - min maker.volume o.volume = 0) :
    placeLoop o ((key, maker) :: rest) =
      ⟨[{ taker_order := o, maker_order := maker,
          volume := min maker.volume o.volume }],
        (key, { maker with
          volume := maker.volume - min maker.volume o.volume }) :: rest,
        if maker.volume - min maker.volume o.volume = 0 then
          [(key, { maker with
            volume := maker.volume - min maker.volume o.volume })]
        else [],
        { o with volume := o.volume - min maker.volume o.volume }⟩ := by
  simp [placeLoop, hns, h0]

theorem placeLoop_cont_eq (o : Order) (key : TreeKey) (maker : Order)
    (rest : Tree) (hns : ¬stopCond o maker)
    (h0 : o.volume - min maker.volume o.volume ≠ 0) :
    placeLoop o ((key, maker) :: rest) =
      ⟨{ taker_order := o, maker_order := maker,
          volume := min maker.volume o.volume } ::
          (placeLoop { o with
            volume := o.volume - min maker.volume o.volume } rest).deals,
        (key, { maker with
          volume := maker.volume - min maker.volume o.volume }) ::
          (placeLoop { o with
            volume := o.volume - min maker.volume o.volume } rest).tree,
        (if maker.volume - min maker.volume o.volume = 0 then
          [(key, { maker with
            volume := maker.volume - min maker.volume o.volume })]
        else []) ++
          (placeLoop { o with
            volume := o.volume - min maker.volume o.volume } rest).removed,
        (placeLoop { o with
          volume := o.volume - min maker.volume o.volume } rest).final⟩ := by
  simp [placeLoop, hns, h0]

theorem placeLoop_maker (o : Order) (t : Tree)
    (hidnd : (t.map (fun e => e.2.id)).Nodup)
    (hknd : (t.map Prod.fst).Nodup)
    (hpos : ∀ e ∈ t, 0 < e.2.volume) :
    ∀ e ∈ t, makerVolume e.2.id (placeLoop o t).deals ≤ e.2.volume ∧
      (makerVolume e.2.id (placeLoop o t).deals = e.2.volume ↔
        e.1 ∈ (placeLoop o t).removed.map Prod.fst) := by
  induction t generalizing o with
  | nil => simp
  | cons f rest ih =>
    obtain ⟨key, maker⟩ := f
    simp only [List.map_cons, List.nodup_cons] at hidnd hknd
    intro e he
    have hpe := hpos e he
    by_cases hstop : stopCond o maker
    · rw [placeLoop_stop_eq o key maker rest hstop]
      simp [makerVolume_nil]
      omega
    · rcases List.mem_cons.mp he with he | he
      · subst he
        have hpm : 0 < maker.volume := by simpa using hpe
        by_cases h0 : o.volume - min maker.volume o.volume = 0
        · rw [placeLoop_break_eq o key maker rest hstop h0]
          by_cases hz : maker.volume - min maker.volume o.volume = 0 <;>
            simp [makerVolume_cons, makerVolume_nil, hz] <;> omega
        · rw [placeLoop_cont_eq o key maker rest hstop h0]
          have hz : maker.volume - min maker.volume o.volume = 0 := by omega
          have hz2 : makerVolume maker.id (placeLoop { o with
              volume := o.volume - min maker.volume o.volume }
              rest).deals = 0 := by
            refine makerVolume_eq_zero ?_
            intro d hd hc
            exact hidnd.1 (hc ▸ placeLoop_deal_maker_ids _ rest d hd)
          simp [makerVolume_cons, hz, hz2]
          omega
      · have hne : maker.id ≠ e.2.id := by
          intro hc
          exact hidnd.1 (hc ▸ List.mem_map.mpr ⟨e, he, rfl⟩)
        have hkne : e.1 ≠ key := by
          intro hc
          exact hknd.1 (hc ▸ List.mem_map.mpr ⟨e, he, rfl⟩)
        by_cases h0 : o.volume - min maker.volume o.volume = 0
        · rw [placeLoop_break_eq o key maker rest hstop h0]
          by_cases hz : maker.volume - min maker.volume o.volume = 0 <;>
            simp [makerVolume_cons, makerVolume_nil, hz, hne, hkne] <;> omega
        · rw [placeLoop_cont_eq o key maker rest hstop h0]
          have hz : maker.volume - min maker.volume o.volume = 0 := by omega
          have ihe := ih { o with
              volume := o.volume - min maker.volume o.volume }
            hidnd.2 hknd.2 (fun f hf => hpos f (List.mem_cons_of_mem _ hf))
            e he
          simp only [makerVolume_cons, if_neg hne, hz, if_pos rfl,
            List.map_append, List.map_cons, List.map_nil, List.mem_append,
            List.mem_cons, List.not_mem_nil, or_false]
          constructor
          · omega
          · rw [show (0 : Nat) + makerVolume e.2.id (placeLoop { o with
                volume := o.volume - min maker.volume o.volume }
                rest).deals = makerVolume e.2.id (placeLoop { o with
                volume := o.volume - min maker.volume o.volume }
                rest).deals from by omega]
            rw [ihe.2]
            simp [hkne]

theorem lookupId_insertId_self (i : Nat) (k : TreeKey)
    (m : List (Nat × TreeKey)) : lookupId i (insertId i k m) = some k := by
  simp [insertId, lookupId]

theorem lookupKey_insertEntry_self {k : TreeKey} {o : Order} {t : Tree}
    (h : ∀ f ∈ t, f.1 ≠ k) :
    Tree.lookupKey k (t.insertEntry k o) = some o := by
  induction t with
  | nil => simp [Tree.insertEntry, Tree.lookupKey]
  | cons e rest ih =>
    by_cases hc : TreeKey.cmp k e.1 = Ordering.lt
    · simp [Tree.insertEntry, hc, Tree.lookupKey]
    · simp only [Tree.insertEntry, if_neg hc]
      rw [show Tree.lookupKey k (e :: Tree.insertEntry k o rest)
        = Tree.lookupKey k (Tree.insertEntry k o rest) from by
          simp [Tree.lookupKey, h e (List.mem_cons_self e rest)]]
      exact ih (fun f hf => h f (List.mem_cons_of_mem e hf))

theorem side_ids_nodup {b : OrderBook} (hw : WFids b) (s : Side) :
    ((b.tree s).map (fun e => e.2.id)).Nodup := by
  have := hw.ids_nodup
  rw [treeIds_eq] at this
  rcases List.nodup_append.mp this with ⟨h1, h2, _⟩
  cases s
  · exact h1
  · exact h2

/-- C4: for every `place` call on a valid book with a fresh order id,
volume is conserved: the deal volumes plus the residual volume equal the
incoming volume, the residual (when non-zero) rests in the book under the
incoming order's id, and each maker is attributed at most its prior
volume, with equality exactly when it was removed from the book. -/
theorem place_volume_conservation (b : OrderBook) (o : Order)
    (hw : WFids b) (hid : o.id ∉ b.treeIds) :
    dealsVolume (b.place o).1 + (placeRun b o).final.volume = o.volume ∧
    ((placeRun b o).final.volume ≠ 0 →
      (b.place o).2.get_order o.id =
        some { o with volume := (placeRun b o).final.volume }) ∧
    (∀ e ∈ b.tree o.side.opposite,
      makerVolume e.2.id (b.place o).1 ≤ e.2.volume ∧
      (makerVolume e.2.id (b.place o).1 = e.2.volume ↔
        Tree.lookupKey e.1 ((b.place o).2.tree o.side.opposite) = none)) := by
  have hg := hw.toGeom
  refine ⟨?_, ?_, ?_⟩
  · rw [place_deals]
    exact placeLoop_conserve o (b.tree o.side.opposite)
  · intro hv
    have hfeq : (placeRun b o).final =
        { o with volume := (placeRun b o).final.volume } := by
      have h1 : (placeRun b o).final.id = o.id :=
        (placeLoop_final o (b.tree o.side.opposite)).1
      have h2 : (placeRun b o).final.side = o.side :=
        (placeLoop_final o (b.tree o.side.opposite)).2.1
      have h3 : (placeRun b o).final.price = o.price :=
        (placeLoop_final o (b.tree o.side.opposite)).2.2.1
      rcases hfin : (placeRun b o).final with ⟨a1, a2, a3, a4⟩
      rw [hfin] at h1 h2 h3
      simp only [Order.mk.injEq]
      exact ⟨h1, h2, h3, trivial⟩
    have hfid : (placeRun b o).final.id = o.id :=
      (placeLoop_final o (b.tree o.side.opposite)).1
    have hfside : (placeRun b o).final.side = o.side :=
      (placeLoop_final o (b.tree o.side.opposite)).2.1
    unfold OrderBook.get_order
    rw [place_uuid, if_pos hv, hfid, lookupId_insertId_self]
    have hkside : ((placeRun b o).final.tree_key b.next_seq_id).side
        = o.side := by
      rw [Order.tree_key]
      exact hfside
    show Tree.lookupKey ((placeRun b o).final.tree_key b.next_seq_id)
      ((b.place o).2.tree
        ((placeRun b o).final.tree_key b.next_seq_id).side)
      = some { o with volume := (placeRun b o).final.volume }
    rw [hkside, place_tree_rest b o hg, if_pos hv]
    rw [lookupKey_insertEntry_self ?_]
    · rw [← hfeq]
    · intro f hf hc
      have := hg.seq o.side f hf
      rw [hc] at this
      rw [Order.tree_key] at this
      simp at this
  · intro e he
    have hmk : makerVolume e.2.id (placeRun b o).deals ≤ e.2.volume ∧
        (makerVolume e.2.id (placeRun b o).deals = e.2.volume ↔
          e.1 ∈ (placeRun b o).removed.map Prod.fst) :=
      placeLoop_maker o (b.tree o.side.opposite)
        (side_ids_nodup hw o.side.opposite)
        (sortedTree_nodup_keys (hg.sorted o.side.opposite))
        (hg.pos o.side.opposite) e he
    rw [place_deals]
    refine ⟨hmk.1, ?_⟩
    rw [hmk.2]
    have hwalk := place_tree_walked b o hg
    have hsorted_r : sortedTree (placeRun b o).tree := by
      rw [sortedTree_keys]
      rw [show (placeRun b o).tree.map Prod.fst
          = (b.tree o.side.opposite).map Prod.fst from
        placeLoop_keys o (b.tree o.side.opposite)]
      exact (sortedTree_keys _).mp (hg.sorted o.side.opposite)
    have hnd_r : ((placeRun b o).tree.map Prod.fst).Nodup :=
      sortedTree_nodup_keys hsorted_r
    constructor
    · intro hrm
      rw [hwalk]
      refine lookupKey_eq_none ?_
      intro f hf hc
      have := (mem_removeAllKeys hnd_r f).mp hf
      exact this.2 (hc ▸ hrm)
    · intro hnone
      by_contra hrm
      obtain ⟨v, hvmem, _⟩ := placeLoop_entry o (b.tree o.side.opposite) e he
      have hsurv : (e.1, { e.2 with volume := v }) ∈
          removeAllKeys (placeRun b o).removed (placeRun b o).tree := by
        rw [mem_removeAllKeys hnd_r]
        exact ⟨hvmem, hrm⟩
      rw [hwalk] at hnone
      exact lookupKey_none_not_mem hnone _ hsurv

/-! ### Price-time priority (C2) -/

theorem placeLoop_reach (o : Order) (v w : Tree) (kb : TreeKey) (c : Order)
    (hidnd : ((v ++ (kb, c) :: w).map (fun e => e.2.id)).Nodup)
    (hknd : ((v ++ (kb, c) :: w).map Prod.fst).Nodup)
    (hpos : ∀ e ∈ v ++ (kb, c) :: w, 0 < e.2.volume) :
    ((∀ d ∈ (placeLoop o (v ++ (kb, c) :: w)).deals,
        d.maker_order.id ≠ c.id) ∧
      (kb, c) ∈ (placeLoop o (v ++ (kb, c) :: w)).tree ∧
      kb ∉ (placeLoop o (v ++ (kb, c) :: w)).removed.map Prod.fst) ∨
    (∃ p dd q, (placeLoop o (v ++ (kb, c) :: w)).deals = p ++ dd :: q ∧
      dd.maker_order.id = c.id ∧
      ∀ d ∈ p ++ q, d.maker_order.id ≠ c.id) := by
  induction v generalizing o with
  | nil =>
    try simp only [List.nil_append] at *
    simp only [List.map_cons, List.nodup_cons] at hidnd hknd
    by_cases hstop : stopCond o c
    · rw [placeLoop_stop_eq o kb c w hstop]
      exact Or.inl ⟨by simp, List.mem_cons_self _ _, by simp⟩
    · by_cases h0 : o.volume - min c.volume o.volume = 0
      · rw [placeLoop_break_eq o kb c w hstop h0]
        exact Or.inr ⟨[], ⟨o, c, min c.volume o.volume⟩, [], by simp, rfl,
          by simp⟩
      · rw [placeLoop_cont_eq o kb c w hstop h0]
        refine Or.inr ⟨[], ⟨o, c, min c.volume o.volume⟩,
          (placeLoop { o with
            volume := o.volume - min c.volume o.volume } w).deals,
          by simp, rfl, ?_⟩
        intro d hd
        simp only [List.nil_append] at hd
        intro hc
        exact hidnd.1 (hc ▸ placeLoop_deal_maker_ids _ w d hd)
  | cons f v' ih =>
    obtain ⟨k0, m0⟩ := f
    try simp only [List.cons_append] at *
    simp only [List.map_cons, List.nodup_cons] at hidnd hknd
    have hm0c : m0.id ≠ c.id := by
      intro hc
      refine hidnd.1 ?_
      rw [hc]
      exact List.mem_map.mpr ⟨(kb, c), by simp, rfl⟩
    have hk0kb : k0 ≠ kb := by
      intro hc
      refine hknd.1 ?_
      rw [hc]
      exact List.mem_map.mpr ⟨(kb, c), by simp, rfl⟩
    by_cases hstop : stopCond o m0
    · rw [placeLoop_stop_eq o k0 m0 (v' ++ (kb, c) :: w) hstop]
      exact Or.inl ⟨by simp, by simp, by simp⟩
    · by_cases h0 : o.volume - min m0.volume o.volume = 0
      · rw [placeLoop_break_eq o k0 m0 (v' ++ (kb, c) :: w) hstop h0]
        refine Or.inl ⟨?_, by simp, ?_⟩
        · intro d hd
          rcases List.mem_singleton.mp hd with rfl
          exact hm0c
        · by_cases hz : m0.volume - min m0.volume o.volume = 0 <;>
            simp [hz, hk0kb.symm]
      · rw [placeLoop_cont_eq o k0 m0 (v' ++ (kb, c) :: w) hstop h0]
        rcases ih { o with volume := o.volume - min m0.volume o.volume }
            hidnd.2 hknd.2
            (fun e he => hpos e (List.mem_cons_of_mem _ he)) with
          ⟨hd1, hd2, hd3⟩ | ⟨p, dd, q, h1, h2, h3⟩
        · refine Or.inl ⟨?_, List.mem_cons_of_mem _ hd2, ?_⟩
          · intro d hd
            rcases List.mem_cons.mp hd with rfl | hd
            · exact hm0c
            · exact hd1 d hd
          · intro hc
            rcases List.mem_map.mp hc with ⟨e, he, hek⟩
            rcases List.mem_append.mp he with he | he
            · by_cases hz : m0.volume - min m0.volume o.volume = 0
              · simp only [if_pos hz, List.mem_singleton] at he
                rw [he] at hek
                exact hk0kb (by simpa using hek)
              · simp [if_neg hz] at he
            · exact hd3 (List.mem_map.mpr ⟨e, he, hek⟩)
        · refine Or.inr ⟨⟨o, m0, min m0.volume o.volume⟩ :: p, dd, q,
            by simp [h1], h2, ?_⟩
          intro d hd
          have hd' : d ∈ (⟨o, m0, min m0.volume o.volume⟩ : Deal)
              :: (p ++ q) := by
            simpa using hd
          rcases List.mem_cons.mp hd' with rfl | hd2
          · exact hm0c
          · exact h3 d hd2

/-- Outcome A of one matching loop for tracked makers `a'` (earlier) and
`c` (later): `c` untouched, `a'` still resting with some volume left. -/
def loopCaseA (ka kb : TreeKey) (a' c : Order) (r : LoopResult) : Prop :=
  ∃ va, 0 < va ∧ va ≤ a'.volume ∧
    (ka, { a' with volume := va }) ∈ r.tree ∧
    ka ∉ r.removed.map Prod.fst ∧ (kb, c) ∈ r.tree ∧
    kb ∉ r.removed.map Prod.fst ∧
    makerVolume a'.id r.deals = a'.volume - va ∧
    ∀ d ∈ r.deals, d.maker_order.id ≠ c.id

/-- Outcome B: `a'` fully consumed and slated for removal, `c` untouched. -/
def loopCaseB (kb : TreeKey) (a' c : Order) (r : LoopResult) : Prop :=
  makerVolume a'.id r.deals = a'.volume ∧
    (∀ e ∈ r.tree, e.2.id = a'.id → e.1 ∈ r.removed.map Prod.fst) ∧
    (kb, c) ∈ r.tree ∧ kb ∉ r.removed.map Prod.fst ∧
    ∀ d ∈ r.deals, d.maker_order.id ≠ c.id

/-- Outcome C: `c` was touched — then `a'` was consumed completely by the
deals strictly before the (unique) deal touching `c`. -/
def loopCaseC (a' c : Order) (r : LoopResult) : Prop :=
  (∃ p dd q, r.deals = p ++ dd :: q ∧ dd.maker_order.id = c.id ∧
    (∀ d ∈ p ++ q, d.maker_order.id ≠ c.id) ∧
    makerVolume a'.id p = a'.volume ∧
    ∀ d ∈ dd :: q, d.maker_order.id ≠ a'.id) ∧
    ∀ e ∈ r.tree, e.2.id = a'.id → e.1 ∈ r.removed.map Prod.fst

theorem placeLoop_fifo (o : Order) (u v w : Tree) (ka kb : TreeKey)
    (a' c : Order)
    (hidnd : ((u ++ (ka, a') :: v ++ (kb, c) :: w).map
      (fun e => e.2.id)).Nodup)
    (hknd : ((u ++ (ka, a') :: v ++ (kb, c) :: w).map Prod.fst).Nodup)
    (hpos : ∀ e ∈ u ++ (ka, a') :: v ++ (kb, c) :: w, 0 < e.2.volume) :
    loopCaseA ka kb a' c (placeLoop o (u ++ (ka, a') :: v ++ (kb, c) :: w)) ∨
    loopCaseB kb a' c (placeLoop o (u ++ (ka, a') :: v ++ (kb, c) :: w)) ∨
    loopCaseC a' c (placeLoop o (u ++ (ka, a') :: v ++ (kb, c) :: w)) := by
  induction u generalizing o with
  | nil =>
    simp only [List.nil_append, List.cons_append] at hidnd hknd hpos ⊢
    simp only [List.map_cons, List.nodup_cons] at hidnd hknd
    have haidc : a'.id ≠ c.id := by
      intro hc
      refine hidnd.1 ?_
      rw [hc]
      exact List.mem_map.mpr ⟨(kb, c), by simp, rfl⟩
    have hkakb : ka ≠ kb := by
      intro hc
      refine hknd.1 ?_
      rw [hc]
      exact List.mem_map.mpr ⟨(kb, c), by simp, rfl⟩
    have hpa : 0 < a'.volume := by
      simpa using hpos (ka, a') (List.mem_cons_self _ _)
    by_cases hstop : stopCond o a'
    · rw [placeLoop_stop_eq o ka a' (v ++ (kb, c) :: w) hstop]
      refine Or.inl ⟨a'.volume, hpa, le_refl _, List.mem_cons_self _ _,
        by simp, by simp, by simp, by simp [makerVolume_nil], by simp⟩
    · by_cases h0 : o.volume - min a'.volume o.volume = 0
      · rw [placeLoop_break_eq o ka a' (v ++ (kb, c) :: w) hstop h0]
        by_cases hz : a'.volume - min a'.volume o.volume = 0
        · refine Or.inr (Or.inl ⟨?_, ?_, by simp, ?_, ?_⟩)
          · rw [makerVolume_cons, makerVolume_nil]
            simp
            omega
          · intro e he hid
            rcases List.mem_cons.mp he with rfl | he
            · simp [hz]
            · exfalso
              refine hidnd.1 ?_
              rw [← hid]
              exact List.mem_map.mpr ⟨e, he, rfl⟩
          · simp [hz, hkakb.symm]
          · intro d hd
            rcases List.mem_singleton.mp hd with rfl
            exact haidc
        · refine Or.inl ⟨a'.volume - min a'.volume o.volume, by omega,
            by omega, List.mem_cons_self _ _, by simp [hz], by simp,
            by simp [hz], ?_, ?_⟩
          · rw [makerVolume_cons, makerVolume_nil]
            simp
            omega
          · intro d hd
            rcases List.mem_singleton.mp hd with rfl
            exact haidc
      · rw [placeLoop_cont_eq o ka a' (v ++ (kb, c) :: w) hstop h0]
        have hdv : min a'.volume o.volume = a'.volume := by omega
        have hz : a'.volume - min a'.volume o.volume = 0 := by omega
        have hmv0 : makerVolume a'.id (placeLoop { o with
            volume := o.volume - min a'.volume o.volume }
            (v ++ (kb, c) :: w)).deals = 0 := by
          refine makerVolume_eq_zero ?_
          intro d hd hc
          exact hidnd.1 (hc ▸ placeLoop_deal_maker_ids _ _ d hd)
        have hagone : ∀ e ∈ (ka, { a' with
            volume := a'.volume - min a'.volume o.volume }) ::
            (placeLoop { o with
              volume := o.volume - min a'.volume o.volume }
              (v ++ (kb, c) :: w)).tree,
            e.2.id = a'.id →
            e.1 ∈ ((if a'.volume - min a'.volume o.volume = 0 then
              [(ka, { a' with
                volume := a'.volume - min a'.volume o.volume })]
              else []) ++ (placeLoop { o with
                volume := o.volume - min a'.volume o.volume }
                (v ++ (kb, c) :: w)).removed).map Prod.fst := by
          intro e he hid
          rcases List.mem_cons.mp he with rfl | he
          · simp [hz]
          · exfalso
            refine hidnd.1 ?_
            rw [← hid]
            have : e.2.id ∈ ((placeLoop { o with
                volume := o.volume - min a'.volume o.volume }
                (v ++ (kb, c) :: w)).tree.map (fun f => f.2.id)) :=
              List.mem_map.mpr ⟨e, he, rfl⟩
            rw [placeLoop_ids] at this
            exact this
        rcases placeLoop_reach { o with
            volume := o.volume - min a'.volume o.volume } v w kb c
            hidnd.2 hknd.2
            (fun e he => hpos e (List.mem_cons_of_mem _ he)) with
          ⟨hd1, hd2, hd3⟩ | ⟨p, dd, q, h1, h2, h3⟩
        · refine Or.inr (Or.inl ⟨?_, hagone, List.mem_cons_of_mem _ hd2,
            ?_, ?_⟩)
          · rw [makerVolume_cons]
            simp [hmv0]
            omega
          · intro hc
            rcases List.mem_map.mp hc with ⟨e, he, hek⟩
            rcases List.mem_append.mp he with he | he
            · simp only [if_pos hz, List.mem_singleton] at he
              rw [he] at hek
              exact hkakb (by simpa using hek)
            · exact hd3 (List.mem_map.mpr ⟨e, he, hek⟩)
          · intro d hd
            rcases List.mem_cons.mp hd with rfl | hd
            · exact haidc
            · exact hd1 d hd
        · have hsubdeal : ∀ d, (d ∈ p ∨ d ∈ dd :: q) →
              d.maker_order.id ≠ a'.id := by
            intro d hd hc
            refine hidnd.1 ?_
            rw [← hc]
            refine placeLoop_deal_maker_ids { o with
              volume := o.volume - min a'.volume o.volume }
              (v ++ (kb, c) :: w) d ?_
            rw [h1]
            rcases hd with hd | hd
            · exact List.mem_append.mpr (Or.inl hd)
            · exact List.mem_append.mpr (Or.inr hd)
          refine Or.inr (Or.inr ⟨⟨⟨o, a', min a'.volume o.volume⟩ :: p,
            dd, q, by simp [h1], h2, ?_, ?_, ?_⟩, hagone⟩)
          · intro d hd
            have hd' : d ∈ (⟨o, a', min a'.volume o.volume⟩ : Deal)
                :: (p ++ q) := by
              simpa using hd
            rcases List.mem_cons.mp hd' with rfl | hd2
            · exact haidc
            · exact h3 d hd2
          · rw [makerVolume_cons]
            simp only [if_pos rfl]
            rw [makerVolume_eq_zero (fun d hd => hsubdeal d (Or.inl hd))]
            simp
            omega
          · intro d hd
            exact hsubdeal d (Or.inr hd)
  | cons f u' ih =>
    obtain ⟨k0, m0⟩ := f
    simp only [List.cons_append] at hidnd hknd hpos ⊢
    simp only [List.map_cons, List.nodup_cons] at hidnd hknd
    have hm0a : m0.id ≠ a'.id := by
      intro hc
      refine hidnd.1 ?_
      rw [hc]
      exact List.mem_map.mpr ⟨(ka, a'), by simp, rfl⟩
    have hm0c : m0.id ≠ c.id := by
      intro hc
      refine hidnd.1 ?_
      rw [hc]
      exact List.mem_map.mpr ⟨(kb, c), by simp, rfl⟩
    have hk0ka : k0 ≠ ka := by
      intro hc
      refine hknd.1 ?_
      rw [hc]
      exact List.mem_map.mpr ⟨(ka, a'), by simp, rfl⟩
    have hk0kb : k0 ≠ kb := by
      intro hc
      refine hknd.1 ?_
      rw [hc]
      exact List.mem_map.mpr ⟨(kb, c), by simp, rfl⟩
    have hpa : 0 < a'.volume := by
      simpa using hpos (ka, a') (by simp)
    by_cases hstop : stopCond o m0
    · rw [placeLoop_stop_eq o k0 m0 (u' ++ (ka, a') :: v ++ (kb, c) :: w)
        hstop]
      refine Or.inl ⟨a'.volume, hpa, le_refl _,
        List.mem_cons_of_mem _ (by simp), by simp, by simp, by simp,
        by simp [makerVolume_nil], by simp⟩
    · by_cases h0 : o.volume - min m0.volume o.volume = 0
      · rw [placeLoop_break_eq o k0 m0 (u' ++ (ka, a') :: v ++ (kb, c) :: w)
          hstop h0]
        refine Or.inl ⟨a'.volume, hpa, le_refl _,
          List.mem_cons_of_mem _ (by simp), ?_, by simp, ?_, ?_, ?_⟩
        · by_cases hz : m0.volume - min m0.volume o.volume = 0 <;>
            simp [hz, hk0ka.symm]
        · by_cases hz : m0.volume - min m0.volume o.volume = 0 <;>
            simp [hz, hk0kb.symm]
        · rw [makerVolume_cons, if_neg hm0a, makerVolume_nil]
          omega
        · intro d hd
          rcases List.mem_singleton.mp hd with rfl
          exact hm0c
      · rw [placeLoop_cont_eq o k0 m0 (u' ++ (ka, a') :: v ++ (kb, c) :: w)
          hstop h0]
        have hrm : ∀ x, x ∈ ((if m0.volume - min m0.volume o.volume = 0 then
            [(k0, { m0 with
              volume := m0.volume - min m0.volume o.volume })]
            else []).map Prod.fst) → x = k0 := by
          intro x hx
          by_cases hz : m0.volume - min m0.volume o.volume = 0 <;>
            simp [hz] at hx
          · exact hx
        rcases ih { o with volume := o.volume - min m0.volume o.volume }
            hidnd.2 hknd.2
            (fun e he => hpos e (List.mem_cons_of_mem _ he)) with
          ⟨va, hva1, hva2, hva3, hva4, hva5, hva6, hva7, hva8⟩ |
          ⟨hb1, hb2, hb3, hb4, hb5⟩ |
          ⟨⟨p, dd, q, hc1, hc2, hc3, hc4, hc5⟩, hagone⟩
        · refine Or.inl ⟨va, hva1, hva2, List.mem_cons_of_mem _ hva3,
            ?_, List.mem_cons_of_mem _ hva5, ?_, ?_, ?_⟩
          · intro hc
            rcases List.mem_map.mp hc with ⟨e, he, hek⟩
            rcases List.mem_append.mp he with he | he
            · exact hk0ka (hrm _ (List.mem_map.mpr ⟨e, he, hek⟩)).symm
            · exact hva4 (List.mem_map.mpr ⟨e, he, hek⟩)
          · intro hc
            rcases List.mem_map.mp hc with ⟨e, he, hek⟩
            rcases List.mem_append.mp he with he | he
            · exact hk0kb (hrm _ (List.mem_map.mpr ⟨e, he, hek⟩)).symm
            · exact hva6 (List.mem_map.mpr ⟨e, he, hek⟩)
          · rw [makerVolume_cons, if_neg hm0a]
            omega
          · intro d hd
            rcases List.mem_cons.mp hd with rfl | hd
            · exact hm0c
            · exact hva8 d hd
        · refine Or.inr (Or.inl ⟨?_, ?_, List.mem_cons_of_mem _ hb3,
            ?_, ?_⟩)
          · rw [makerVolume_cons, if_neg hm0a]
            omega
          · intro e he hid
            rcases List.mem_cons.mp he with rfl | he
            · exact absurd hid hm0a
            · have := hb2 e he hid
              refine List.mem_map.mpr ?_
              rcases List.mem_map.mp this with ⟨f2, hf2, hfk⟩
              exact ⟨f2, List.mem_append.mpr (Or.inr hf2), hfk⟩
          · intro hc
            rcases List.mem_map.mp hc with ⟨e, he, hek⟩
            rcases List.mem_append.mp he with he | he
            · exact hk0kb (hrm _ (List.mem_map.mpr ⟨e, he, hek⟩)).symm
            · exact hb4 (List.mem_map.mpr ⟨e, he, hek⟩)
          · intro d hd
            rcases List.mem_cons.mp hd with rfl | hd
            · exact hm0c
            · exact hb5 d hd
        · refine Or.inr (Or.inr ⟨⟨⟨o, m0, min m0.volume o.volume⟩ :: p,
            dd, q, by exact congrArg (List.cons _) hc1, hc2,
            ?_, ?_, ?_⟩, ?_⟩)
          · intro d hd
            have hd' : d ∈ (⟨o, m0, min m0.volume o.volume⟩ : Deal)
                :: (p ++ q) := by
              simpa using hd
            rcases List.mem_cons.mp hd' with rfl | hd2
            · exact hm0c
            · exact hc3 d hd2
          · rw [makerVolume_cons, if_neg hm0a]
            omega
          · intro d hd
            rcases List.mem_cons.mp hd with rfl | hd
            · exact hc5 _ (List.mem_cons_self _ _)
            · exact hc5 d (List.mem_cons_of_mem _ hd)
          · intro e he hid
            rcases List.mem_cons.mp he with rfl | he
            · exact absurd hid hm0a
            · have := hagone e he hid
              refine List.mem_map.mpr ?_
              rcases List.mem_map.mp this with ⟨f2, hf2, hfk⟩
              exact ⟨f2, List.mem_append.mpr (Or.inr hf2), hfk⟩

theorem append_split_cons {α : Type} {l1 l2 pre post : List α} {d : α}
    (h : l1 ++ l2 = pre ++ d :: post) :
    (∃ post1, l1 = pre ++ d :: post1 ∧ post = post1 ++ l2) ∨
    (∃ pre2, pre = l1 ++ pre2 ∧ l2 = pre2 ++ d :: post) := by
  induction l1 generalizing pre with
  | nil =>
    right
    exact ⟨pre, by simp, by simpa using h⟩
  | cons x l1' ih =>
    cases pre with
    | nil =>
      left
      simp only [List.nil_append, List.cons_append, List.cons.injEq] at h ⊢
      exact ⟨l1', ⟨h.1, rfl⟩, h.2.symm⟩
    | cons y pre' =>
      simp only [List.cons_append, List.cons.injEq] at h
      rcases ih h.2 with ⟨post1, h1, h2⟩ | ⟨pre2, h1, h2⟩
      · exact Or.inl ⟨post1, by simp [h.1, h1], h2⟩
      · exact Or.inr ⟨pre2, by simp [h.1, h1], h2⟩

theorem split_unique {α : Type} (P : α → Prop) {p q pre post : List α}
    {dd d : α} (h : p ++ dd :: q = pre ++ d :: post) (hdd : P dd)
    (hd : P d) (hnot : ∀ x ∈ p ++ q, ¬ P x) :
    pre = p ∧ d = dd ∧ post = q := by
  induction p generalizing pre with
  | nil =>
    cases pre with
    | nil =>
      simp only [List.nil_append, List.cons.injEq] at h
      exact ⟨rfl, h.1.symm, h.2.symm⟩
    | cons y pre' =>
      simp only [List.nil_append, List.cons_append, List.cons.injEq] at h
      exfalso
      have : d ∈ q := by
        rw [h.2]
        simp
      exact hnot d (by simpa using this) hd
  | cons x p' ih =>
    cases pre with
    | nil =>
      simp only [List.nil_append, List.cons_append, List.cons.injEq] at h
      exfalso
      exact hnot x (by simp) (h.1 ▸ hd)
    | cons y pre' =>
      simp only [List.cons_append, List.cons.injEq] at h
      have := ih h.2 (fun z hz => hnot z (by
        rcases List.mem_append.mp hz with hz | hz
        · exact List.mem_append.mpr (Or.inl (List.mem_cons_of_mem _ hz))
        · exact List.mem_append.mpr (Or.inr hz)))
      exact ⟨by rw [h.1, this.1], this.2.1, this.2.2⟩

theorem sorted_split {t : Tree} {s : Side} (hs : sortedTree t)
    (hside : ∀ f ∈ t, f.1.side = s) {ka kb : TreeKey} {x y : Order}
    (hx : (ka, x) ∈ t) (hy : (kb, y) ∈ t)
    (hlt : TreeKey.cmp ka kb = .lt) :
    ∃ u v w, t = u ++ (ka, x) :: v ++ (kb, y) :: w := by
  induction t with
  | nil => simp at hx
  | cons e rest ih =>
    rw [sortedTree, List.pairwise_cons] at hs
    rcases List.mem_cons.mp hx with hex | hex
    · have hyr : (kb, y) ∈ rest := by
        rcases List.mem_cons.mp hy with h | h
        · exfalso
          rw [← hex] at h
          have hk : kb = ka := congrArg Prod.fst h
          rw [hk, cmp_self_eq] at hlt
          exact absurd hlt (by decide)
        · exact h
      obtain ⟨v, w, hvw⟩ := List.append_of_mem hyr
      refine ⟨[], v, w, ?_⟩
      rw [← hex, hvw]
      simp
    · rcases List.mem_cons.mp hy with hey | hey
      · exfalso
        have hlt2 : TreeKey.cmp kb ka = .lt := by
          have := hs.1 (ka, x) hex
          rw [← hey] at this
          exact this
        refine cmp_asymm ?_ hlt hlt2
        rw [hside (ka, x) (List.mem_cons_of_mem _ hex),
          hside (kb, y) hy]
      · obtain ⟨u, v, w, hsplit⟩ := ih hs.2
          (fun f hf => hside f (List.mem_cons_of_mem _ hf)) hex hey
        refine ⟨e :: u, v, w, ?_⟩
        rw [hsplit]
        simp

theorem ids_disjoint {b : OrderBook} (hw : WFids b) (s : Side) (i : Nat)
    (h1 : i ∈ (b.tree s).map (fun e => e.2.id))
    (h2 : i ∈ (b.tree s.opposite).map (fun e => e.2.id)) : False := by
  have hnd := hw.ids_nodup
  rw [treeIds_eq, List.nodup_append] at hnd
  cases s
  · exact hnd.2.2 h1 h2
  · exact hnd.2.2 h2 h1

theorem place_step_fifo (b : OrderBook) (o : Order) (hw : WFids b)
    (s : Side) (ka kb : TreeKey) (a' c : Order)
    (hma : (ka, a') ∈ b.tree s) (hmc : (kb, c) ∈ b.tree s)
    (hacid : a'.id ≠ c.id) (hlt : TreeKey.cmp ka kb = .lt)
    (hfresh : o.id ∉ b.treeIds) :
    (∃ va, 0 < va ∧ va ≤ a'.volume ∧
      (ka, { a' with volume := va }) ∈ (b.place o).2.tree s ∧
      (kb, c) ∈ (b.place o).2.tree s ∧
      makerVolume a'.id (b.place o).1 = a'.volume - va ∧
      ∀ d ∈ (b.place o).1, d.maker_order.id ≠ c.id) ∨
    (makerVolume a'.id (b.place o).1 = a'.volume ∧
      a'.id ∉ (b.place o).2.treeIds ∧
      ∀ d ∈ (b.place o).1, d.maker_order.id ≠ c.id) ∨
    (∃ p dd q, (b.place o).1 = p ++ dd :: q ∧ dd.maker_order.id = c.id ∧
      (∀ d ∈ p ++ q, d.maker_order.id ≠ c.id) ∧
      makerVolume a'.id p = a'.volume ∧
      (∀ d ∈ dd :: q, d.maker_order.id ≠ a'.id) ∧
      a'.id ∉ (b.place o).2.treeIds) := by
  have hg := hw.toGeom
  have hpa : 0 < a'.volume := hg.pos s (ka, a') hma
  rcases Side.eq_own_or_opposite s o.side with hos | hos
  · -- taker on the same side as the tracked makers: it walks the other tree
    have hdeal : ∀ d ∈ (b.place o).1, d.maker_order.id ≠ a'.id ∧
        d.maker_order.id ≠ c.id := by
      intro d hd
      rw [place_deals] at hd
      have hdid : d.maker_order.id ∈
          (b.tree o.side.opposite).map (fun e => e.2.id) :=
        placeLoop_deal_maker_ids o (b.tree o.side.opposite) d hd
      rw [hos] at hdid
      constructor
      · intro hc
        exact ids_disjoint hw s a'.id
          (List.mem_map.mpr ⟨(ka, a'), hma, hc.symm ▸ rfl⟩) (hc ▸ hdid)
      · intro hc
        exact ids_disjoint hw s c.id
          (List.mem_map.mpr ⟨(kb, c), hmc, hc.symm ▸ rfl⟩) (hc ▸ hdid)
    have hmem : ∀ e : TreeKey × Order, e ∈ b.tree s →
        e ∈ (b.place o).2.tree s := by
      intro e he
      have htr := place_tree_rest b o hg
      rw [← hos] at he ⊢
      rw [htr]
      by_cases hv : (placeRun b o).final.volume ≠ 0
      · rw [if_pos hv]
        exact mem_insertEntry.mpr (Or.inr he)
      · rw [if_neg hv]
        exact he
    refine Or.inl ⟨a'.volume, hpa, le_refl _, hmem _ hma, hmem _ hmc, ?_, ?_⟩
    · rw [makerVolume_eq_zero (fun d hd => (hdeal d hd).1)]
      omega
    · exact fun d hd => (hdeal d hd).2
  · -- taker on the opposite side: it walks the tracked tree
    have hsop : o.side.opposite = s := by
      rw [hos, Side.opposite_opposite]
    obtain ⟨u, v, w, hteq⟩ := sorted_split (hg.sorted s)
      (fun f hf => (hg.coh s f hf).1) hma hmc hlt
    have hidnd : ((u ++ (ka, a') :: v ++ (kb, c) :: w).map
        (fun e => e.2.id)).Nodup := by
      rw [← hteq]
      exact side_ids_nodup hw s
    have hknd : ((u ++ (ka, a') :: v ++ (kb, c) :: w).map Prod.fst).Nodup := by
      rw [← hteq]
      exact sortedTree_nodup_keys (hg.sorted s)
    have hpos : ∀ e ∈ u ++ (ka, a') :: v ++ (kb, c) :: w, 0 < e.2.volume := by
      rw [← hteq]
      exact hg.pos s
    have hPR : placeRun b o =
        placeLoop o (u ++ (ka, a') :: v ++ (kb, c) :: w) := by
      unfold placeRun
      rw [hsop, hteq]
    have hDE : (b.place o).1 =
        (placeLoop o (u ++ (ka, a') :: v ++ (kb, c) :: w)).deals := by
      rw [place_deals, hPR]
    have hwtree : (b.place o).2.tree s =
        removeAllKeys (placeRun b o).removed (placeRun b o).tree := by
      have := place_tree_walked b o hg
      rw [hsop] at this
      exact this
    have hsorted_r : sortedTree (placeRun b o).tree := by
      rw [sortedTree_keys]
      rw [show (placeRun b o).tree.map Prod.fst
          = (b.tree o.side.opposite).map Prod.fst from
        placeLoop_keys o (b.tree o.side.opposite)]
      rw [hsop]
      exact (sortedTree_keys _).mp (hg.sorted s)
    have hnd_r : ((placeRun b o).tree.map Prod.fst).Nodup :=
      sortedTree_nodup_keys hsorted_r
    have hsurv : ∀ e : TreeKey × Order,
        e ∈ (placeLoop o (u ++ (ka, a') :: v ++ (kb, c) :: w)).tree →
        e.1 ∉ (placeLoop o
          (u ++ (ka, a') :: v ++ (kb, c) :: w)).removed.map Prod.fst →
        e ∈ (b.place o).2.tree s := by
      intro e he hrm
      rw [hwtree, mem_removeAllKeys hnd_r]
      rw [hPR]
      exact ⟨he, hrm⟩
    have hagone_conv :
        (∀ e ∈ (placeLoop o (u ++ (ka, a') :: v ++ (kb, c) :: w)).tree,
          e.2.id = a'.id → e.1 ∈ (placeLoop o
            (u ++ (ka, a') :: v ++ (kb, c) :: w)).removed.map Prod.fst) →
        a'.id ∉ (b.place o).2.treeIds := by
      intro hagone hmem
      rw [mem_treeIds] at hmem
      obtain ⟨s', e, he, hid⟩ := hmem
      rcases Side.eq_own_or_opposite s s' with hss | hss
      · subst hss
        rw [hwtree, mem_removeAllKeys hnd_r, hPR] at he
        exact he.2 (hagone e he.1 hid)
      · rw [hss, ← hos] at he
        have := place_tree_rest b o hg
        rw [this] at he
        by_cases hv : (placeRun b o).final.volume ≠ 0
        · rw [if_pos hv] at he
          rcases mem_insertEntry.mp he with he | he
          · have hfid : (placeRun b o).final.id = o.id :=
              (placeLoop_final o (b.tree o.side.opposite)).1
            rw [he] at hid
            simp only at hid
            rw [hfid] at hid
            refine hfresh ?_
            rw [hid]
            exact mem_treeIds.mpr ⟨s, (ka, a'), hma, rfl⟩
          · refine ids_disjoint hw s a'.id
              (List.mem_map.mpr ⟨(ka, a'), hma, rfl⟩) ?_
            rw [← hos] at hss
            rw [show s.opposite = o.side from by rw [hos]]
            exact List.mem_map.mpr ⟨e, he, hid⟩
        · rw [if_neg hv] at he
          refine ids_disjoint hw s a'.id
            (List.mem_map.mpr ⟨(ka, a'), hma, rfl⟩) ?_
          rw [show s.opposite = o.side from by rw [hos]]
          exact List.mem_map.mpr ⟨e, he, hid⟩
    rcases placeLoop_fifo o u v w ka kb a' c hidnd hknd hpos with
      ⟨va, hva1, hva2, hva3, hva4, hva5, hva6, hva7, hva8⟩ |
      ⟨hb1, hb2, hb3, hb4, hb5⟩ |
      ⟨⟨p, dd, q, hc1, hc2, hc3, hc4, hc5⟩, hagone⟩
    · refine Or.inl ⟨va, hva1, hva2, hsurv _ hva3 hva4, hsurv _ hva5 hva6,
        ?_, ?_⟩
      · rw [hDE]
        exact hva7
      · rw [hDE]
        exact hva8
    · refine Or.inr (Or.inl ⟨?_, hagone_conv hb2, ?_⟩)
      · rw [hDE]
        exact hb1
      · rw [hDE]
        exact hb5
    · refine Or.inr (Or.inr ⟨p, dd, q, ?_, hc2, hc3, hc4, hc5,
        hagone_conv hagone⟩)
      rw [hDE]
      exact hc1

/-- Run a sequence of `place` calls, concatenating the emitted deals in
emission order. -/
def placeAll (b : OrderBook) : List Order → List Deal × OrderBook
  | [] => ([], b)
  | o :: rest =>
    ((b.place o).1 ++ (placeAll (b.place o).2 rest).1,
      (placeAll (b.place o).2 rest).2)

theorem place_deal_in_book (b : OrderBook) (o : Order) :
    ∀ d ∈ (b.place o).1, d.maker_order.id ∈ b.treeIds := by
  intro d hd
  rw [place_deals] at hd
  obtain ⟨_, _, _, e₀, he₀, hm⟩ :=
    placeLoop_deals o (b.tree o.side.opposite) d hd
  exact mem_treeIds.mpr ⟨o.side.opposite, e₀, he₀, by rw [hm]⟩

theorem placeAll_no_maker (os : List Order) (b : OrderBook) (hg : Geom b)
    (aid : Nat) (ha : aid ∉ b.treeIds) (hos : ∀ o ∈ os, o.id ≠ aid) :
    ∀ d ∈ (placeAll b os).1, d.maker_order.id ≠ aid := by
  induction os generalizing b with
  | nil => simp [placeAll]
  | cons o rest ih =>
    intro d hd
    rcases List.mem_append.mp hd with hd | hd
    · intro hc
      exact ha (hc ▸ place_deal_in_book b o d hd)
    · refine ih (b.place o).2 (place_geom b o hg) ?_
        (fun o' ho' => hos o' (List.mem_cons_of_mem _ ho')) d hd
      intro hmem
      rcases place_treeIds_subset b o hg aid hmem with h | h
      · exact hos o (List.mem_cons_self _ _) h.symm
      · exact ha h

theorem placeAll_fifo (os : List Order) (b : OrderBook) (hw : WFids b)
    (s : Side) (ka kb : TreeKey) (a' c : Order)
    (hma : (ka, a') ∈ b.tree s) (hmc : (kb, c) ∈ b.tree s)
    (hacid : a'.id ≠ c.id) (hlt : TreeKey.cmp ka kb = .lt)
    (hfresh : ∀ o ∈ os, o.id ∉ b.treeIds)
    (hndos : (os.map Order.id).Nodup) :
    ∀ pre d post, (placeAll b os).1 = pre ++ d :: post →
      d.maker_order.id = c.id →
      makerVolume a'.id pre = a'.volume ∧
        ∀ d' ∈ d :: post, d'.maker_order.id ≠ a'.id := by
  induction os generalizing b a' with
  | nil =>
    intro pre d post hsplit hdc
    exact absurd hsplit (by simp [placeAll])
  | cons o rest ih =>
    simp only [List.map_cons, List.nodup_cons] at hndos
    have haid_mem : a'.id ∈ b.treeIds :=
      mem_treeIds.mpr ⟨s, (ka, a'), hma, rfl⟩
    have hw' : WFids (b.place o).2 :=
      place_WFids b o hw (hfresh o (List.mem_cons_self _ _))
    have hfresh' : ∀ o' ∈ rest, o'.id ∉ (b.place o).2.treeIds := by
      intro o' ho' hmem
      rcases place_treeIds_subset b o hw.toGeom o'.id hmem with h | h
      · exact hndos.1 (h ▸ List.mem_map.mpr ⟨o', ho', rfl⟩)
      · exact hfresh o' (List.mem_cons_of_mem _ ho') h
    have hrest_no_a : a'.id ∉ (b.place o).2.treeIds →
        ∀ d ∈ (placeAll (b.place o).2 rest).1, d.maker_order.id ≠ a'.id := by
      intro hgone
      refine placeAll_no_maker rest (b.place o).2 hw'.toGeom a'.id hgone ?_
      intro o' ho' hc
      exact hfresh o' (List.mem_cons_of_mem _ ho') (hc ▸ haid_mem)
    intro pre d post hsplit hdc
    rw [show (placeAll b (o :: rest)).1
        = (b.place o).1 ++ (placeAll (b.place o).2 rest).1 from rfl]
      at hsplit
    rcases place_step_fifo b o hw s ka kb a' c hma hmc hacid hlt
        (hfresh o (List.mem_cons_self _ _)) with
      ⟨va, hva1, hva2, hva3, hva4, hva5, hva6⟩ |
      ⟨hb1, hb2, hb3⟩ |
      ⟨p, dd, q, hc1, hc2, hc3, hc4, hc5, hc6⟩
    · -- the call leaves both makers resting, c untouched
      rcases append_split_cons hsplit with ⟨post1, hL1, hL2⟩ |
        ⟨pre2, hR1, hR2⟩
      · exact absurd hdc (hva6 d (by rw [hL1]; simp))
      · have hih := ih (b.place o).2 hw' { a' with volume := va }
          hva3 hva4 hacid hfresh' hndos.2 pre2 d post hR2 hdc
        constructor
        · rw [hR1, makerVolume_append, hva5]
          have h2 : makerVolume a'.id pre2 = va := hih.1
          omega
        · exact hih.2
    · -- the call consumed the earlier maker completely; c untouched
      rcases append_split_cons hsplit with ⟨post1, hL1, hL2⟩ |
        ⟨pre2, hR1, hR2⟩
      · exact absurd hdc (hb3 d (by rw [hL1]; simp))
      · constructor
        · rw [hR1, makerVolume_append, hb1,
            makerVolume_eq_zero (fun d' hd' => hrest_no_a hb2 d'
              (by rw [hR2]; exact List.mem_append.mpr (Or.inl hd')))]
          omega
        · intro d' hd'
          exact hrest_no_a hb2 d' (by
            rw [hR2]
            exact List.mem_append.mpr (Or.inr hd'))
    · -- the call touched c: the earlier maker was consumed strictly before
      rcases append_split_cons hsplit with ⟨post1, hL1, hL2⟩ |
        ⟨pre2, hR1, hR2⟩
      · rw [hc1] at hL1
        obtain ⟨hp1, hp2, hp3⟩ := split_unique
          (fun x => x.maker_order.id = c.id) hL1 hc2 hdc hc3
        constructor
        · rw [hp1, hc4]
        · intro d' hd'
          rcases List.mem_cons.mp hd' with rfl | hd'
          · rw [hp2]
            exact hc5 dd (List.mem_cons_self _ _)
          · rw [hL2] at hd'
            rcases List.mem_append.mp hd' with hd' | hd'
            · rw [hp3] at hd'
              exact hc5 d' (List.mem_cons_of_mem _ hd')
            · exact hrest_no_a hc6 d' hd'
      · constructor
        · have h1 : makerVolume a'.id (b.place o).1 = a'.volume := by
            rw [hc1, makerVolume_append, makerVolume_cons]
            rw [makerVolume_eq_zero (fun d' hd' => hc5 d'
              (List.mem_cons_of_mem _ hd'))]
            have hdda : dd.maker_order.id ≠ a'.id :=
              hc5 dd (List.mem_cons_self _ _)
            rw [if_neg hdda, hc4]
            omega
          have h2 : makerVolume a'.id pre2 = 0 :=
            makerVolume_eq_zero (fun d' hd' => hrest_no_a hc6 d'
              (by rw [hR2]; exact List.mem_append.mpr (Or.inl hd')))
          rw [hR1, makerVolume_append, h1, h2]
          omega
        · intro d' hd'
          exact hrest_no_a hc6 d' (by
            rw [hR2]
            rcases List.mem_cons.mp hd' with rfl | hd'
            · exact List.mem_append.mpr (Or.inr (List.mem_cons_self _ _))
            · exact List.mem_append.mpr
                (Or.inr (List.mem_cons_of_mem _ hd')))

/-- C2: price-time priority.  For any valid order book holding two resting
orders `a'` (under key `ka`) and `c` (under key `kb`) on the same side at
the same price with `ka.seq_id < kb.seq_id`, any sequence of `place`
operations (with fresh, pairwise distinct taker ids) emits its deals so
that the first deal touching `c` is preceded by deals consuming `a'`
completely (their volumes against `a'` sum to all of `a'.volume`), and no
deal from that point on touches `a'`. -/
theorem price_time_priority (b : OrderBook) (hw : WFids b)
    (s : Side) (ka kb : TreeKey) (a' c : Order)
    (hma : (ka, a') ∈ b.tree s) (hmc : (kb, c) ∈ b.tree s)
    (hprice : ka.price = kb.price) (hseq : ka.seq_id < kb.seq_id)
    (os : List Order) (hfresh : ∀ o ∈ os, o.id ∉ b.treeIds)
    (hndos : (os.map Order.id).Nodup) :
    ∀ pre d post, (placeAll b os).1 = pre ++ d :: post →
      d.maker_order.id = c.id →
      makerVolume a'.id pre = a'.volume ∧
        ∀ d' ∈ d :: post, d'.maker_order.id ≠ a'.id := by
  have hka : ka.side = s := ((hw.toGeom.coh s) (ka, a') hma).1
  have hkb : kb.side = s := ((hw.toGeom.coh s) (kb, c) hmc).1
  have hlt : TreeKey.cmp ka kb = .lt := by
    cases s
    · rw [cmp_lt_buy ka kb hka]
      exact Or.inr ⟨hprice, hseq⟩
    · rw [cmp_lt_sell ka kb hka]
      exact Or.inr ⟨hprice, hseq⟩
  have hacid : a'.id ≠ c.id := by
    intro h
    have hinj := List.inj_on_of_nodup_map (side_ids_nodup hw s) hma hmc h
    have hk : ka = kb := congrArg Prod.fst hinj
    rw [hk] at hseq
    omega
  exact placeAll_fifo os b hw s ka kb a' c hma hmc hacid hlt hfresh hndos

/-- Concrete book for exercising C2: two resting sells at price 100 with
sequence ids 0 and 1 (order ids 1 and 2). -/
def bookC2 : OrderBook :=
  { next_seq_id := 2
    buy_levels := []
    sell_levels :=
      [(⟨Side.Sell, 100, 0⟩, ⟨1, Side.Sell, 100, 5⟩),
       (⟨Side.Sell, 100, 1⟩, ⟨2, Side.Sell, 100, 5⟩)]
    by_uuid :=
      [(1, ⟨Side.Sell, 100, 0⟩), (2, ⟨Side.Sell, 100, 1⟩)] }

def dealC2a : Deal :=
  { taker_order := ⟨3, Side.Buy, 100, 7⟩
    maker_order := ⟨1, Side.Sell, 100, 5⟩
    volume := 5 }

def dealC2b : Deal :=
  { taker_order := ⟨3, Side.Buy, 100, 2⟩
    maker_order := ⟨2, Side.Sell, 100, 5⟩
    volume := 2 }

theorem price_time_priority_witness :
    makerVolume 1 [dealC2a] = 5 ∧
      ∀ d' ∈ dealC2b :: ([] : List Deal), d'.maker_order.id ≠ 1 :=
  price_time_priority bookC2
    ⟨⟨by decide, by decide, by decide, by decide, by decide, by decide,
      by decide, by decide⟩, by decide⟩
    Side.Sell ⟨Side.Sell, 100, 0⟩ ⟨Side.Sell, 100, 1⟩
    ⟨1, Side.Sell, 100, 5⟩ ⟨2, Side.Sell, 100, 5⟩
    (by decide) (by decide) (by decide) (by decide)
    [⟨3, Side.Buy, 100, 7⟩] (by decide) (by decide)
    [dealC2a] dealC2b [] (by decide) (by decide)

/-- Concrete book for exercising C4: one resting sell of volume 7. -/
def bookC4 : OrderBook :=
  { next_seq_id := 1
    buy_levels := []
    sell_levels := [(⟨Side.Sell, 4500, 0⟩, ⟨1, Side.Sell, 4500, 7⟩)]
    by_uuid := [(1, ⟨Side.Sell, 4500, 0⟩)] }

def oC4 : Order := ⟨3, Side.Buy, 4600, 4⟩

theorem place_volume_conservation_witness :
    dealsVolume (bookC4.place oC4).1 + (placeRun bookC4 oC4).final.volume
      = oC4.volume :=
  (place_volume_conservation bookC4 oC4
    ⟨⟨by decide, by decide, by decide, by decide, by decide, by decide,
      by decide, by decide⟩, by decide⟩ (by decide)).1

/-- Full well-formedness of an order book: geometry, globally distinct
resting ids, and a `by_uuid` map that is duplicate-free, sound (every
binding points at a resting entry carrying that id) and complete (every
resting entry is bound under its id). -/
structure WF (b : OrderBook) extends Geom b : Prop where
  ids_nodup : b.treeIds.Nodup
  uuid_nodup : (b.by_uuid.map Prod.fst).Nodup
  uuid_sound : ∀ p ∈ b.by_uuid,
    ∃ e ∈ b.tree p.2.side, e.1 = p.2 ∧ e.2.id = p.1
  uuid_complete : ∀ s, ∀ e ∈ b.tree s, (e.2.id, e.1) ∈ b.by_uuid

/-- C6: on a well-formed book, cancelling a resting id succeeds, a
subsequent `get_order` on that id returns `none`, and an entry (key and
order, hence side, price, volume and id) rests in the updated book iff it
rested before and does not carry the cancelled id; cancelling an id that
is not resting fails with `OrderNotFound` and leaves the book
unchanged. -/
theorem cancel_removes_exactly_one (b : OrderBook) (X : Nat) (hw : WF b) :
    ((∃ s, ∃ e ∈ b.tree s, e.2.id = X) →
      (b.cancel_order X).1 = .ok () ∧
      (b.cancel_order X).2.get_order X = none ∧
      ∀ s e, e ∈ (b.cancel_order X).2.tree s ↔
        e ∈ b.tree s ∧ e.2.id ≠ X) ∧
    ((∀ s, ∀ e ∈ b.tree s, e.2.id ≠ X) →
      (b.cancel_order X).1 = .error CancellingError.OrderNotFound ∧
      (b.cancel_order X).2 = b) := by
  constructor
  · rintro ⟨s, e₀, he₀, hid⟩
    have hwi : WFids b := ⟨hw.toGeom, hw.ids_nodup⟩
    have hmem : (X, e₀.1) ∈ b.by_uuid := hid ▸ hw.uuid_complete s e₀ he₀
    have hlook : lookupId X b.by_uuid = some e₀.1 :=
      lookupId_of_mem hw.uuid_nodup hmem
    have hside : e₀.1.side = s := ((hw.toGeom.coh s) e₀ he₀).1
    have hknd : ((b.tree s).map Prod.fst).Nodup :=
      sortedTree_nodup_keys (hw.toGeom.sorted s)
    have hc2 : (b.cancel_order X).2 = b.remove_order e₀.1 X := by
      simp [OrderBook.cancel_order, hlook]
    refine ⟨by simp [OrderBook.cancel_order, hlook], ?_, ?_⟩
    · rw [hc2]
      have hnl : lookupId X (b.remove_order e₀.1 X).by_uuid = none := by
        rw [remove_order_uuid]
        exact lookupId_eq_none (fun p hp => ((mem_removeId p).mp hp).2)
      unfold OrderBook.get_order
      rw [hnl]
    · intro s' e'
      rw [hc2]
      by_cases hss : s' = e₀.1.side
      · rw [hss, remove_order_tree_same, hside, mem_removeKey hknd]
        constructor
        · rintro ⟨he', hne⟩
          refine ⟨he', ?_⟩
          intro hX
          apply hne
          have he : e' = e₀ :=
            List.inj_on_of_nodup_map (side_ids_nodup hwi s) he' he₀
              (by rw [hX, hid])
          rw [he]
        · rintro ⟨he', hne⟩
          refine ⟨he', ?_⟩
          intro hk
          apply hne
          have he : e' = e₀ := List.inj_on_of_nodup_map hknd he' he₀ hk
          rw [he, hid]
      · rw [remove_order_tree_other _ _ _ hss]
        constructor
        · intro he'
          refine ⟨he', ?_⟩
          intro hX
          have hns : s' ≠ s := fun h => hss (h.trans hside.symm)
          have hso : s' = s.opposite := by
            cases s <;> cases s' <;> simp_all [Side.opposite]
          exact (ids_disjoint hwi s X
            (List.mem_map.mpr ⟨e₀, he₀, hid⟩)
            (List.mem_map.mpr ⟨e', hso ▸ he', hX⟩)).elim
        · rintro ⟨he', _⟩
          exact he'
  · intro hno
    have hnone : lookupId X b.by_uuid = none := by
      rcases hl : lookupId X b.by_uuid with _ | key
      · rfl
      · obtain ⟨e, he, hkey, hide⟩ := hw.uuid_sound (X, key) (lookupId_mem hl)
        exact absurd hide (hno key.side e he)
    constructor <;> simp [OrderBook.cancel_order, hnone]

/-- Concrete book for exercising C6: a resting sell (id 1) and a resting
buy (id 2). -/
def bookC6 : OrderBook :=
  { next_seq_id := 2
    buy_levels := [(⟨Side.Buy, 90, 1⟩, ⟨2, Side.Buy, 90, 3⟩)]
    sell_levels := [(⟨Side.Sell, 100, 0⟩, ⟨1, Side.Sell, 100, 5⟩)]
    by_uuid :=
      [(1, ⟨Side.Sell, 100, 0⟩), (2, ⟨Side.Buy, 90, 1⟩)] }

theorem cancel_removes_exactly_one_witness :
    (bookC6.cancel_order 1).1 = .ok () ∧
      (bookC6.cancel_order 1).2.get_order 1 = none ∧
      ∀ s e, e ∈ (bookC6.cancel_order 1).2.tree s ↔
        e ∈ bookC6.tree s ∧ e.2.id ≠ 1 :=
  (cancel_removes_exactly_one bookC6 1
    ⟨⟨by decide, by decide, by decide, by decide, by decide, by decide,
      by decide, by decide⟩, by decide, by decide, by decide,
      by intro s; cases s <;> decide⟩).1
    ⟨Side.Sell, (⟨Side.Sell, 100, 0⟩, ⟨1, Side.Sell, 100, 5⟩),
      by decide, by decide⟩

/-! ### The message protocol (`src/protocol.rs`) and the exchange loop
(`src/core.rs`).  Uuids are modelled as naturals. -/

/-- `struct PlaceOrder` from `src/protocol.rs`. -/
structure PlaceOrder where
  msg_id : Nat
  pair : String
  side : String
  price : Nat
  volume : Nat
deriving DecidableEq, Repr

/-- `struct CancelOrder` from `src/protocol.rs`. -/
structure CancelOrder where
  msg_id : Nat
  pair : String
  order_id : Nat
deriving DecidableEq, Repr

/-- `enum InboxMessage` from `src/protocol.rs`. -/
inductive InboxMessage where
  | PlaceOrder (m : PlaceOrder)
  | CancelOrder (m : CancelOrder)
deriving DecidableEq, Repr

/-- `MessageWithId::get_id` as dispatched over `InboxMessage`. -/
def InboxMessage.get_id : InboxMessage → Nat
  | .PlaceOrder m => m.msg_id
  | .CancelOrder m => m.msg_id

/-- `struct OrderPlaced` from `src/protocol.rs`. -/
structure OrderPlaced where
  pair : String
  side : String
  price : Nat
  volume : Nat
  order_id : Nat
deriving DecidableEq, Repr

/-- `struct OrderFilled` from `src/protocol.rs`. -/
structure OrderFilled where
  taker_order : Order
  maker_order : Order
  volume : Nat
deriving DecidableEq, Repr

/-- `struct OrderCancelled` from `src/protocol.rs`. -/
structure OrderCancelled where
  order_id : Nat
  pair : String
deriving DecidableEq, Repr

/-- `struct OrderNotFound` from `src/protocol.rs`. -/
structure OrderNotFound where
  order_id : Nat
  pair : String
deriving DecidableEq, Repr

/-- `enum OutboxMessage` from `src/protocol.rs`. -/
inductive OutboxMessage where
  | OrderPlaced (m : OrderPlaced)
  | OrderFilled (m : OrderFilled)
  | OrderCancelled (m : OrderCancelled)
  | OrderNotFound (m : OrderNotFound)
deriving DecidableEq, Repr

/-- `struct OutboxEnvelope` from `src/protocol.rs`. -/
structure OutboxEnvelope where
  inbox_correlation_id : Nat
  messages : List OutboxMessage
deriving DecidableEq, Repr

/-- The side parsing in `Exchange::run` (`src/core.rs` lines 106-110):
the string `"buy"` maps to `Side::Buy`, every other string to
`Side::Sell`. -/
def sideOfString (s : String) : Side :=
  if s = "buy" then Side.Buy else Side.Sell

/-- `HashMap::get` on the association-list model of `Exchange::pairs`. -/
def lookupPair (p : String) : List (String × OrderBook) → Option OrderBook
  | [] => none
  | e :: rest => if e.1 = p then some e.2 else lookupPair p rest

/-- Writing back a mutated book into `Exchange::pairs` (the Rust loop
mutates the book in place through `get_mut`). -/
def updatePair (p : String) (b : OrderBook) :
    List (String × OrderBook) → List (String × OrderBook)
  | [] => []
  | e :: rest =>
    if e.1 = p then (e.1, b) :: rest else e :: updatePair p b rest

/-- One iteration of the consumer loop in `Exchange::run` (`src/core.rs`
lines 89-185): decode elided, the fresh uuid minted by `Order::new` is an
explicit parameter.  An unknown pair makes `.context("invalid pair")?`
return an error from `run`; otherwise the iteration produces exactly one
outbox envelope and the updated pairs map. -/
def Exchange.handle (pairs : List (String × OrderBook)) (fresh : Nat) :
    InboxMessage → Except String (OutboxEnvelope × List (String × OrderBook))
  | .PlaceOrder m =>
    match lookupPair m.pair pairs with
    | none => .error "invalid pair"
    | some book =>
      let order : Order := ⟨fresh, sideOfString m.side, m.price, m.volume⟩
      let r := book.place order
      .ok
        ({ inbox_correlation_id := m.msg_id
           messages :=
             .OrderPlaced ⟨m.pair, m.side, order.price, order.volume,
                 order.id⟩ ::
               r.1.map (fun d =>
                 .OrderFilled ⟨d.taker_order, d.maker_order, d.volume⟩) },
          updatePair m.pair r.2 pairs)
  | .CancelOrder m =>
    match lookupPair m.pair pairs with
    | none => .error "invalid pair"
    | some book =>
      let r := book.cancel_order m.order_id
      .ok
        ({ inbox_correlation_id := m.msg_id
           messages :=
             [match r.1 with
              | .ok _ => .OrderCancelled ⟨m.order_id, m.pair⟩
              | .error _ => .OrderNotFound ⟨m.order_id, m.pair⟩] },
          updatePair m.pair r.2 pairs)

/-- The whole consumer loop of `Exchange::run` over a finite inbox:
returns the published envelopes in order, the number of deliveries
acknowledged (the `basic_ack` at `src/core.rs` line 182 runs after the
publish of each successful iteration), and the error that ended `run`
early, if any.  The `?` on the pair lookup exits `run` before publishing
or acking, dropping the remaining deliveries. -/
def Exchange.runAll (pairs : List (String × OrderBook)) (fresh : Nat) :
    List InboxMessage → List OutboxEnvelope × Nat × Option String
  | [] => ([], 0, none)
  | m :: rest =>
    match Exchange.handle pairs fresh m with
    | .error e => ([], 0, some e)
    | .ok (env, pairs') =>
      let r := Exchange.runAll pairs' (fresh + 1) rest
      (env :: r.1, r.2.1 + 1, r.2.2)

/-- The pair named by an inbox message (`message.pair` in both arms of
the match in `Exchange::run`). -/
def InboxMessage.pair : InboxMessage → String
  | .PlaceOrder m => m.pair
  | .CancelOrder m => m.pair

/-- C10: the exchange parses the side string of a `PlaceOrder` message as
`Side::Buy` exactly when it equals `"buy"`; every other string is
interpreted as `Side::Sell`, and the message is still handled (no
rejection of unknown side values): on a known pair the handler succeeds
and places the order built with the parsed side. -/
theorem side_parsing (m : PlaceOrder) (pairs : List (String × OrderBook))
    (fresh : Nat) (book : OrderBook)
    (h : lookupPair m.pair pairs = some book) :
    (sideOfString m.side = Side.Buy ↔ m.side = "buy") ∧
    (m.side ≠ "buy" → sideOfString m.side = Side.Sell) ∧
    Exchange.handle pairs fresh (.PlaceOrder m) =
      .ok
        (⟨m.msg_id,
          .OrderPlaced ⟨m.pair, m.side, m.price, m.volume, fresh⟩ ::
            (book.place ⟨fresh, sideOfString m.side, m.price,
                m.volume⟩).1.map
              (fun d => .OrderFilled ⟨d.taker_order, d.maker_order,
                d.volume⟩)⟩,
         updatePair m.pair
           (book.place ⟨fresh, sideOfString m.side, m.price, m.volume⟩).2
           pairs) := by
  refine ⟨?_, ?_, ?_⟩
  · unfold sideOfString
    by_cases hb : m.side = "buy" <;> simp [hb]
  · intro hb
    simp [sideOfString, hb]
  · simp [Exchange.handle, h]

theorem side_parsing_witness : sideOfString "SELL" = Side.Sell :=
  (side_parsing ⟨1, "BTC_USD", "SELL", 10, 1⟩
    [("BTC_USD", OrderBook.new)] 0 OrderBook.new rfl).2.1 (by decide)

/-- C7 (corrected): when the head delivery of the inbox names an unknown
pair, `.context("invalid pair")?` makes `Exchange::run` return the error:
no envelope is published, nothing is acknowledged (the `basic_ack` sits
after the publish, which is never reached), and the remaining deliveries
are not consumed — the loop terminates instead of dropping the command
and continuing. -/
theorem unknown_pair_terminates_run (pairs : List (String × OrderBook))
    (fresh : Nat) (m : InboxMessage) (rest : List InboxMessage)
    (h : lookupPair m.pair pairs = none) :
    Exchange.handle pairs fresh m = .error "invalid pair" ∧
    Exchange.runAll pairs fresh (m :: rest) =
      ([], 0, some "invalid pair") := by
  have h1 : Exchange.handle pairs fresh m = .error "invalid pair" := by
    cases m with
    | PlaceOrder p => simp [InboxMessage.pair] at h; simp [Exchange.handle, h]
    | CancelOrder c => simp [InboxMessage.pair] at h; simp [Exchange.handle, h]
  exact ⟨h1, by simp [Exchange.runAll, h1]⟩

theorem unknown_pair_terminates_run_witness :
    Exchange.runAll [("BTC_USD", OrderBook.new)] 0
      [.PlaceOrder ⟨7, "ETH_USD", "buy", 10, 1⟩,
       .PlaceOrder ⟨8, "BTC_USD", "buy", 10, 1⟩] =
      ([], 0, some "invalid pair") :=
  (unknown_pair_terminates_run [("BTC_USD", OrderBook.new)] 0
    (.PlaceOrder ⟨7, "ETH_USD", "buy", 10, 1⟩)
    [.PlaceOrder ⟨8, "BTC_USD", "buy", 10, 1⟩] rfl).2

/-- C7 counterexample to the claimed behaviour: on an unknown-pair
delivery followed by a well-formed one, the loop ends with the
`invalid pair` error, publishing no envelope and acknowledging nothing —
it does not ack the bad delivery and keep consuming (which would have
published the second message's envelope and acked twice). -/
theorem unknown_pair_no_ack_counterexample :
    Exchange.runAll [("BTC_USD", OrderBook.new)] 0
        [.PlaceOrder ⟨7, "ETH_USD", "buy", 10, 1⟩,
         .PlaceOrder ⟨8, "BTC_USD", "buy", 10, 1⟩] =
        ([], 0, some "invalid pair") ∧
      Exchange.runAll [("BTC_USD", OrderBook.new)] 0
        [.PlaceOrder ⟨7, "ETH_USD", "buy", 10, 1⟩,
         .PlaceOrder ⟨8, "BTC_USD", "buy", 10, 1⟩] ≠
        ([⟨8, [.OrderPlaced ⟨"BTC_USD", "buy", 10, 1, 1⟩]⟩], 2, none) := by
  constructor <;> decide

/-- C5: every successfully handled inbox message yields exactly one
envelope whose correlation id is the message's `msg_id`; for a
`PlaceOrder` its messages are one `OrderPlaced` followed by one
`OrderFilled` per emitted deal in emission order, and for a `CancelOrder`
exactly one message — `OrderCancelled` on success, `OrderNotFound` when
the id is unknown. -/
theorem envelope_shape (pairs : List (String × OrderBook)) (fresh : Nat)
    (msg : InboxMessage) (env : OutboxEnvelope)
    (pairs' : List (String × OrderBook))
    (h : Exchange.handle pairs fresh msg = .ok (env, pairs')) :
    env.inbox_correlation_id = msg.get_id ∧
    (∀ m, msg = .PlaceOrder m → ∃ book,
      lookupPair m.pair pairs = some book ∧
      env.messages =
        .OrderPlaced ⟨m.pair, m.side, m.price, m.volume, fresh⟩ ::
          (book.place ⟨fresh, sideOfString m.side, m.price,
              m.volume⟩).1.map
            (fun d => .OrderFilled ⟨d.taker_order, d.maker_order,
              d.volume⟩)) ∧
    (∀ m, msg = .CancelOrder m → ∃ book,
      lookupPair m.pair pairs = some book ∧
      ((book.cancel_order m.order_id).1 = .ok () ∧
        env.messages = [.OrderCancelled ⟨m.order_id, m.pair⟩] ∨
       (book.cancel_order m.order_id).1 =
          .error CancellingError.OrderNotFound ∧
        env.messages = [.OrderNotFound ⟨m.order_id, m.pair⟩])) := by
  cases msg with
  | PlaceOrder m =>
    rcases hl : lookupPair m.pair pairs with _ | book <;>
      simp [Exchange.handle, hl] at h
    obtain ⟨henv, hp⟩ := h
    refine ⟨by rw [← henv]; rfl, ?_, ?_⟩
    · intro m' hm'
      injection hm' with he
      subst he
      exact ⟨book, hl, by rw [← henv]⟩
    · intro m' hm'
      cases hm'
  | CancelOrder m =>
    rcases hl : lookupPair m.pair pairs with _ | book <;>
      simp [Exchange.handle, hl] at h
    obtain ⟨henv, hp⟩ := h
    refine ⟨by rw [← henv]; rfl, ?_, ?_⟩
    · intro m' hm'
      cases hm'
    · intro m' hm'
      injection hm' with he
      subst he
      refine ⟨book, hl, ?_⟩
      rcases hc : (book.cancel_order m.order_id).1 with e | u
      · cases e
        refine Or.inr ⟨rfl, ?_⟩
        rw [← henv]
        simp only [hc]
      · cases u
        refine Or.inl ⟨rfl, ?_⟩
        rw [← henv]
        simp only [hc]

theorem envelope_shape_witness :
    (⟨5, [.OrderNotFound ⟨42, "BTC_USD"⟩]⟩ :
        OutboxEnvelope).inbox_correlation_id =
      (InboxMessage.CancelOrder ⟨5, "BTC_USD", 42⟩).get_id :=
  (envelope_shape [("BTC_USD", OrderBook.new)] 0
    (.CancelOrder ⟨5, "BTC_USD", 42⟩)
    ⟨5, [.OrderNotFound ⟨42, "BTC_USD"⟩]⟩
    [("BTC_USD", OrderBook.new)] rfl).1

/-! ### The REST gateway (`src/rest_api.rs`) -/

/-- `struct PlaceOrderRequest` from `src/rest_api.rs`. -/
structure PlaceOrderRequest where
  pair : String
  side : String
  price : Nat
  volume : Nat
deriving DecidableEq, Repr

/-- The message-building half of `place_order_handler` (`src/rest_api.rs`
lines 96-123), with the AMQP plumbing elided and the minted `msg_id` an
explicit parameter: the handler performs no validation of the request
body (line 101 is a bare `// TODO: validate request`), unconditionally
builds the `PlaceOrder` inbox message from the request fields and
publishes it, and replies with HTTP status 200.  Returns the status code
paired with the published inbox messages. -/
def place_order_handler (req : PlaceOrderRequest) (msg_id : Nat) :
    Nat × List InboxMessage :=
  (200,
    [.PlaceOrder ⟨msg_id, req.pair, req.side, req.price, req.volume⟩])

/-- C8: the gateway does not reject invalid bodies.  A request whose side
is not in {"buy","sell"} and whose price and volume are zero is still
published to the inbox verbatim and answered with status 200, not a 4xx:
the handler has no validation step. -/
theorem invalid_request_not_rejected :
    (place_order_handler ⟨"BTC_USD", "foo", 0, 0⟩ 42).1 = 200 ∧
    (place_order_handler ⟨"BTC_USD", "foo", 0, 0⟩ 42).2 =
      [.PlaceOrder ⟨42, "BTC_USD", "foo", 0, 0⟩] :=
  ⟨rfl, rfl⟩

/-! ### C9 — protocol round-trip.

The serde-derived codec itself lives outside `src/`; the following
definitions are modelled from the spec's wire-schema section (§4.3):
JSON-encoded tagged unions with an external variant tag, struct fields as
JSON object members in declaration order, sides as their variant names,
ids as atoms (the uuid text form is abstracted to the same `Nat` that
models uuids everywhere else in this development). -/

/-- Modelled from the spec: a JSON value (objects, arrays, strings and
the numeric atoms the protocol uses). -/
inductive Json where
  | str (s : String)
  | num (n : Nat)
  | arr (xs : List Json)
  | obj (fields : List (String × Json))

/-- Modelled from the spec: a `Side` is encoded as its variant name. -/
def encodeSide : Side → Json
  | Side.Buy => .str "Buy"
  | Side.Sell => .str "Sell"

/-- Modelled from the spec: decoder for `Side`. -/
def decodeSide : Json → Option Side
  | .str s =>
    if s = "Buy" then some Side.Buy
    else if s = "Sell" then some Side.Sell
    else none
  | _ => none

/-- Modelled from the spec: an `Order` is an object with its fields in
declaration order. -/
def encodeOrder (o : Order) : Json :=
  .obj [("id", .num o.id), ("side", encodeSide o.side),
        ("price", .num o.price), ("volume", .num o.volume)]

/-- Modelled from the spec: decoder for `Order`. -/
def decodeOrder : Json → Option Order
  | .obj [(k1, .num i), (k2, js), (k3, .num p), (k4, .num v)] =>
    if k1 = "id" ∧ k2 = "side" ∧ k3 = "price" ∧ k4 = "volume" then
      match decodeSide js with
      | some sd => some ⟨i, sd, p, v⟩
      | none => none
    else none
  | _ => none

/-- Modelled from the spec: an `InboxMessage` is an object with a single
member whose key is the variant tag and whose value is the payload
object. -/
def encodeInbox : InboxMessage → Json
  | .PlaceOrder m =>
    .obj [("PlaceOrder",
      .obj [("msg_id", .num m.msg_id), ("pair", .str m.pair),
            ("side", .str m.side), ("price", .num m.price),
            ("volume", .num m.volume)])]
  | .CancelOrder m =>
    .obj [("CancelOrder",
      .obj [("msg_id", .num m.msg_id), ("pair", .str m.pair),
            ("order_id", .num m.order_id)])]

/-- Modelled from the spec: decoder for `InboxMessage`, discriminating on
the external variant tag. -/
def decodeInbox : Json → Option InboxMessage
  | .obj [(tag, .obj [(k1, .num a), (k2, .str b), (k3, .str c),
      (k4, .num d), (k5, .num e)])] =>
    if tag = "PlaceOrder" ∧ k1 = "msg_id" ∧ k2 = "pair" ∧ k3 = "side" ∧
        k4 = "price" ∧ k5 = "volume" then
      some (.PlaceOrder ⟨a, b, c, d, e⟩)
    else none
  | .obj [(tag, .obj [(k1, .num a), (k2, .str b), (k3, .num c)])] =>
    if tag = "CancelOrder" ∧ k1 = "msg_id" ∧ k2 = "pair" ∧
        k3 = "order_id" then
      some (.CancelOrder ⟨a, b, c⟩)
    else none
  | _ => none

/-- Modelled from the spec: an `OutboxMessage` is an object with a single
member whose key is the variant tag and whose value is the payload
object. -/
def encodeOutbox : OutboxMessage → Json
  | .OrderPlaced m =>
    .obj [("OrderPlaced",
      .obj [("pair", .str m.pair), ("side", .str m.side),
            ("price", .num m.price), ("volume", .num m.volume),
            ("order_id", .num m.order_id)])]
  | .OrderFilled m =>
    .obj [("OrderFilled",
      .obj [("taker_order", encodeOrder m.taker_order),
            ("maker_order", encodeOrder m.maker_order),
            ("volume", .num m.volume)])]
  | .OrderCancelled m =>
    .obj [("OrderCancelled",
      .obj [("order_id", .num m.order_id), ("pair", .str m.pair)])]
  | .OrderNotFound m =>
    .obj [("OrderNotFound",
      .obj [("order_id", .num m.order_id), ("pair", .str m.pair)])]

/-- Modelled from the spec: decoder for `OutboxMessage`, discriminating
on the external variant tag. -/
def decodeOutbox : Json → Option OutboxMessage
  | .obj [(tag, .obj [(k1, .str b), (k2, .str c), (k3, .num d),
      (k4, .num e), (k5, .num f)])] =>
    if tag = "OrderPlaced" ∧ k1 = "pair" ∧ k2 = "side" ∧ k3 = "price" ∧
        k4 = "volume" ∧ k5 = "order_id" then
      some (.OrderPlaced ⟨b, c, d, e, f⟩)
    else none
  | .obj [(tag, .obj [(k1, jt), (k2, jm), (k3, .num v)])] =>
    if tag = "OrderFilled" ∧ k1 = "taker_order" ∧ k2 = "maker_order" ∧
        k3 = "volume" then
      match decodeOrder jt, decodeOrder jm with
      | some t, some mk => some (.OrderFilled ⟨t, mk, v⟩)
      | _, _ => none
    else none
  | .obj [(tag, .obj [(k1, .num a), (k2, .str b)])] =>
    if k1 = "order_id" ∧ k2 = "pair" then
      if tag = "OrderCancelled" then some (.OrderCancelled ⟨a, b⟩)
      else if tag = "OrderNotFound" then some (.OrderNotFound ⟨a, b⟩)
      else none
    else none
  | _ => none

/-- C9: the protocol round-trips — decoding the encoding of any inbox or
outbox message yields the original message. -/
theorem protocol_roundtrip :
    (∀ m : InboxMessage, decodeInbox (encodeInbox m) = some m) ∧
    (∀ m : OutboxMessage, decodeOutbox (encodeOutbox m) = some m) := by
  constructor
  · intro m
    cases m <;> rfl
  · intro m
    cases m with
    | OrderPlaced p => rfl
    | OrderFilled f =>
      rcases f with ⟨⟨ti, ts, tp, tv⟩, ⟨mi, ms, mp, mv⟩, v⟩
      cases ts <;> cases ms <;> rfl
    | OrderCancelled c => rfl
    | OrderNotFound n => rfl

end Oxidebook
